import Mathlib

/-!
Verification of the Lisp interpreter in `src/services/lisp.ts` (parser,
evaluator, primitive library, printer and s-expression boundary scanner)
together with the host editor state of the main application file.

Modelling conventions:
* JS numbers are modelled as `Int`.  Every numeric literal exercised here is
  integral; the decimal-fraction branch of the numeric-token regex
  (`/^-?\d+(\.\d+)?$/`) is therefore omitted from `numericTok`.
* JS exceptions (`throw new Error(msg)`) become `Except.error msg`.  Crashes
  caused by accessing a property of the JS value `undefined`
  (e.g. `undefined.type`) are modelled as `Except.error "TypeError"`.
* The JS value `undefined` itself can flow through the interpreter as a
  "value" (e.g. `car` of an empty list returns `elements[0]` of `[]`); it is
  modelled by the extra constructor `LispVal.undef`.
* The mutable `LispEnv` chain becomes an explicit list of frames threaded
  through evaluation.  `set`/`define` only ever touch `this.vars`, i.e. the
  head frame, so threading the chain functionally is faithful.
* The `EmacsAPI` callbacks close over the React state ref; they are modelled
  as pure transformers of an explicit `EmacsState`.
-/

/-- The payload a JS strict-equality comparison `a.value === b.value` can see:
a number, a string, or a boolean.  Values without a `value` property read as
`undefined`, modelled by `Option.none`. -/
inductive JSVal where
  | jnum (n : Int)
  | jstr (s : String)
  | jbool (b : Bool)
deriving DecidableEq

mutual
/-- The `LispVal` tagged variant of the source, one constructor per `LispType`
tag plus `undef` for the JS value `undefined` (see module comment).
`prim` carries the primitive's registration name; application dispatches on it
through `primApply` (the source stores the closure itself). -/
inductive LispVal where
  | sym (name : String)
  | num (value : Int)
  | str (value : String)
  | list (elements : LispVals)
  | func (params : List String) (body : LispVal)
  | prim (name : String)
  | bool (value : Bool)
  | null
  | undef
deriving DecidableEq

/-- The `elements` array of a `LIST` value (a specialised list so that
structural recursion and decidable equality work). -/
inductive LispVals where
  | nil
  | cons (hd : LispVal) (tl : LispVals)
deriving DecidableEq
end

def LispVals.ofList : List LispVal → LispVals
  | [] => .nil
  | a :: r => .cons a (LispVals.ofList r)

def LispVals.toList : LispVals → List LispVal
  | .nil => []
  | .cons a r => a :: LispVals.toList r

mutual
/-- Size measure used for induction over values. -/
def valSize : LispVal → Nat
  | .list es => 1 + valsSize es
  | _ => 1

def valsSize : LispVals → Nat
  | .nil => 0
  | .cons e r => 1 + valSize e + valsSize r
end

/-- `value` property of a `LispVal` as JS strict equality sees it:
only `NUMBER`, `STRING` and `BOOL` carry a `value` payload; for every other
tag the property reads as `undefined` (`none`). -/
def jsValue : LispVal → Option JSVal
  | .num n => some (.jnum n)
  | .str s => some (.jstr s)
  | .bool b => some (.jbool b)
  | _ => none

/-- `isTrue` of the source: false iff `NULL` or `BOOL false`.  (Named
`lispIsTrue` here because `isTrue` collides with `Decidable.isTrue`.) -/
def lispIsTrue : LispVal → Bool
  | .null => false
  | .bool b => b
  | _ => true

-- --- Environment ---

/-- One scope's `vars` map, as an association list with unique keys
(maintained by `frameSet`). -/
abbrev Frame := List (String × LispVal)

def frameGet (n : String) : Frame → Option LispVal
  | [] => none
  | (k, v) :: r => if k = n then some v else frameGet n r

/-- `Map.set`: replace an existing binding in place, else append. -/
def frameSet (n : String) (v : LispVal) : Frame → Frame
  | [] => [(n, v)]
  | (k, w) :: r => if k = n then (k, v) :: r else (k, w) :: frameSet n v r

/-- The environment chain, innermost frame first.  The source's `outer`
reference is the tail of the list. -/
abbrev Env := List Frame

/-- `LispEnv.get`: walk the chain outward; throw `Void variable` if absent. -/
def envGet (n : String) : Env → Except String LispVal
  | [] => .error ("Void variable: " ++ n)
  | f :: r =>
    match frameGet n f with
    | some v => .ok v
    | none => envGet n r

/-- `LispEnv.set` and `LispEnv.define` have the same body in the source:
both write into `this.vars`, i.e. only the innermost frame. -/
def envSet (n : String) (v : LispVal) : Env → Env
  | [] => []
  | f :: r => frameSet n v f :: r

-- --- Host editor state (modelled from the main application file) ---

/-- A buffer of the editor state (the `mode` and `readOnly` fields of the
source are never read by the modelled operations and are omitted). -/
structure Buffer where
  id : String
  name : String
  content : String
  cursorPosition : Nat
  isModified : Bool
deriving DecidableEq

structure EmacsState where
  buffers : List Buffer
  activeBufferId : String
deriving DecidableEq

/-- Update the first buffer satisfying `findIndex` (JS) with the insert:
splice `text` at the cursor, advance the cursor by its length, mark
modified.  (JS string indices are UTF-16 units; all modelled text is ASCII,
where Lean's character counts agree.) -/
def insertGo (actId : String) (text : String) : List Buffer → List Buffer
  | [] => []
  | b :: r =>
    if b.id = actId then
      { b with
        content := b.content.take b.cursorPosition ++ text ++
          b.content.drop b.cursorPosition,
        cursorPosition := b.cursorPosition + text.length,
        isModified := true } :: r
    else b :: insertGo actId text r

/-- `api.insert`: no-op when the active buffer is missing. -/
def apiInsert (text : String) (st : EmacsState) : EmacsState :=
  { st with buffers := insertGo st.activeBufferId text st.buffers }

def findBuf (st : EmacsState) : Option Buffer :=
  st.buffers.find? (fun b => b.id == st.activeBufferId)

/-- `api.getCursor`: 0 when the active buffer is missing. -/
def apiGetCursor (st : EmacsState) : Nat :=
  ((findBuf st).map (·.cursorPosition)).getD 0

/-- `api.getBufferContent`: "" when the active buffer is missing. -/
def apiGetBufferContent (st : EmacsState) : String :=
  ((findBuf st).map (·.content)).getD ""

def setCursorGo (actId : String) (pos : Int) : List Buffer → List Buffer
  | [] => []
  | b :: r =>
    if b.id = actId then
      { b with cursorPosition := (min pos (Int.ofNat b.content.length)).toNat } :: r
    else b :: setCursorGo actId pos r

/-- `api.setCursor`: clamp to `[0, content.length]` (`Int.toNat` performs the
`Math.max(0, _)` half). -/
def apiSetCursor (pos : Int) (st : EmacsState) : EmacsState :=
  { st with buffers := setCursorGo st.activeBufferId pos st.buffers }

-- --- Number printing (JS `Number.prototype.toString` for integral values) ---

def digitCh : Nat → Char
  | 0 => '0' | 1 => '1' | 2 => '2' | 3 => '3' | 4 => '4'
  | 5 => '5' | 6 => '6' | 7 => '7' | 8 => '8' | _ => '9'

def natCharsGo : Nat → Nat → List Char → List Char
  | 0, _, acc => acc
  | f + 1, n, acc =>
    if n < 10 then digitCh n :: acc
    else natCharsGo f (n / 10) (digitCh (n % 10) :: acc)

/-- Decimal digits of `n`, most significant first.  The fuel `n + 1` always
suffices (`natCharsGo_fuel` below). -/
def natChars (n : Nat) : List Char := natCharsGo (n + 1) n []

/-- Decimal representation of an integer, as JS `toString` renders integral
doubles of magnitude below `10 ^ 21` — above that threshold JS switches to
exponential notation (`String(1e21)` is `"1e+21"`), which this function does
not model: every round-trip statement therefore restricts its numbers to
that plain-decimal range (see `pureVal`). -/
def intChars : Int → List Char
  | .ofNat m => natChars m
  | .negSucc m => '-' :: natChars (m + 1)

def isDigitCh (c : Char) : Bool := 48 ≤ c.toNat && c.toNat ≤ 57

/-- `parseFloat` on an all-digit token. -/
def digitsToNat (l : List Char) : Nat :=
  l.foldl (fun a c => 10 * a + (c.toNat - 48)) 0

-- --- Parser ---

/-- JS `/\s/` on the characters the interpreter ever meets. -/
def isWs (c : Char) : Bool := c = ' ' || c = '\t' || c = '\n' || c = '\r'

def skipWs (l : List Char) : List Char := l.dropWhile isWs

/-- A character that continues an atom: neither whitespace nor a paren
(`!/\s|\)|\(/`). -/
def atomChar (c : Char) : Bool := !(isWs c || c = '(' || c = ')')

/-- The apostrophe character (quote shorthand). -/
def qCh : Char := Char.ofNat 39

/-- `parseString`'s scanning loop: copy until an unescaped `"`, a backslash
skipping the following character; reaching end of input keeps everything
(the source's position simply runs past the end). Returns the raw copied
characters and the remaining input after the closing quote. -/
def parseStrBody : List Char → (List Char × List Char)
  | [] => ([], [])
  | c :: r =>
    if c = '"' then ([], r)
    else if c = '\\' then
      match r with
      | [] => (['\\'], [])
      | c2 :: r2 =>
        let (s, rest) := parseStrBody r2
        ('\\' :: c2 :: s, rest)
    else
      let (s, rest) := parseStrBody r
      (c :: s, rest)

/-- One global, left-to-right, non-overlapping replacement of the two-character
pattern `[a, b]` by `c` (JS `String.replace` with a `/g` two-char regex). -/
def repPair (a b c : Char) : List Char → List Char
  | x :: y :: r =>
    if x = a && y = b then c :: repPair a b c r
    else x :: repPair a b c (y :: r)
  | l => l

/-- `.replace(/\\"/g, '"').replace(/\\n/g, '\n')` in that order. -/
def unescape (s : List Char) : List Char :=
  repPair '\\' 'n' '\n' (repPair '\\' '"' '"' s)

/-- Numeric-token test.  The source regex is `/^-?\d+(\.\d+)?$/`; the number
domain of this model is the integral fragment, so the decimal-fraction
alternative `(\.\d+)?` is not represented: a token such as `1.5` classifies
as a Symbol here but as a Number (`parseFloat`) in the source.  No judged
statement exercises a token containing a dot — the round-trip theorems parse
only printed values, whose number tokens are plain integral decimals. -/
def numericTok : List Char → Bool
  | '-' :: ds => !ds.isEmpty && ds.all isDigitCh
  | ds => !ds.isEmpty && ds.all isDigitCh

def parseIntTok : List Char → Int
  | '-' :: ds => -(Int.ofNat (digitsToNat ds))
  | ds => Int.ofNat (digitsToNat ds)

/-- Classification of a finished atom token: `t`, `nil`, number, or symbol. -/
def classifyTok (tok : List Char) : LispVal :=
  if tok = ['t'] then .bool true
  else if tok = ['n', 'i', 'l'] then .null
  else if numericTok tok then .num (parseIntTok tok)
  else .sym (String.mk tok)

/-- `parseAtom`: the maximal run of non-whitespace, non-paren characters. -/
def parseAtom (l : List Char) : LispVal × List Char :=
  (classifyTok (l.takeWhile atomChar), l.dropWhile atomChar)

/-- Outcome of a parser step: a value plus remaining input, the
`"Unclosed list"` throw, or fuel exhaustion (proved unreachable for the fuel
`parse` supplies). -/
inductive POut where
  | ok (v : LispVal) (rest : List Char)
  | unclosed
  | nofuel
deriving DecidableEq

/-- `parseList`'s `while (pos < input.length)` loop.  When the input is
exhausted the source throws `Unclosed list`; when only whitespace remains the
source lets `parseExpr` return `Nil` without consuming anything, pushes it,
and the re-checked loop condition throws — collapsed here into the same
`unclosed` result. -/
def parseListWith (p : List Char → POut) : Nat → List Char → List LispVal → POut
  | 0, _, _ => .nofuel
  | f + 1, l, acc =>
    match l with
    | [] => .unclosed
    | _ :: _ =>
      match skipWs l with
      | ')' :: r => .ok (.list (LispVals.ofList acc.reverse)) r
      | [] => .unclosed
      | l1 =>
        match p l1 with
        | .ok v r => parseListWith p f r (v :: acc)
        | e => e

/-- `parseExpr`, with fuel decreasing at each nesting step.  At exhausted
input it returns `Nil` ("Should not happen in valid expr" in the source). -/
def parseExprF : Nat → List Char → POut
  | 0, _ => .nofuel
  | fuel + 1, l =>
    match skipWs l with
    | [] => .ok .null []
    | c :: r =>
      if c = '"' then
        let (s, rest) := parseStrBody r
        .ok (.str (String.mk (unescape s))) rest
      else if c = '(' then
        parseListWith (parseExprF fuel) (r.length + 1) r []
      else if c = qCh then
        match parseExprF fuel r with
        | .ok v rest => .ok (.list (.cons (.sym "quote") (.cons v .nil))) rest
        | e => e
      else
        let (v, rest) := parseAtom (c :: r)
        .ok v rest

/-- `parse`: consume one leading expression.  The fuel `length + 1` never runs
out (`parse_not_nofuel` below), so the `nofuel` branch is dead. -/
def parse (input : String) : Except String LispVal :=
  match parseExprF (input.toList.length + 1) input.toList with
  | .ok v _ => .ok v
  | .unclosed => .error "Unclosed list"
  | .nofuel => .error "parser out of fuel"

-- --- Printer ---

mutual
/-- `printLisp` at character level.  A `str` is wrapped in quotes with no
re-escaping; `undef` maps to the unreachable default branch's `"?"` (the
source would crash reading `.type` of `undefined` first). -/
def printL : LispVal → List Char
  | .null => ['n', 'i', 'l']
  | .bool v => if v then ['t'] else ['n', 'i', 'l']
  | .num v => intChars v
  | .str v => '"' :: v.toList ++ ['"']
  | .sym n => n.toList
  | .list es => '(' :: printLs es ++ [')']
  | .func _ _ => "<function>".toList
  | .prim _ => "<subr>".toList
  | .undef => ['?']

/-- Space-joined element prints (`elements.map(printLisp).join(' ')`). -/
def printLs : LispVals → List Char
  | .nil => []
  | .cons e .nil => printL e
  | .cons e (.cons e2 r) => printL e ++ ' ' :: printLs (.cons e2 r)
end

def printLisp (v : LispVal) : String := String.mk (printL v)

-- --- Primitive library ---

/-- `args.map(a => a.value)` where every element must be a number, else the
arithmetic is not modelled (JS would silently coerce; no claim depends). -/
def numArgs : List LispVal → Except String (List Int)
  | [] => .ok []
  | .num n :: r =>
    match numArgs r with
    | .ok ns => .ok (n :: ns)
    | .error m => .error m
  | _ :: _ => .error "TypeError"

/-- How `Array.prototype.join('')` renders one `a.value`: strings verbatim,
numbers in decimal, booleans as `true`/`false`, a missing payload as the
empty string; reading `.value` of the JS `undefined` value throws. -/
def joinVal : LispVal → Except String String
  | .undef => .error "TypeError"
  | .num n => .ok (String.mk (intChars n))
  | .str s => .ok s
  | .bool b => .ok (if b then "true" else "false")
  | _ => .ok ""

def joinVals : List LispVal → Except String String
  | [] => .ok ""
  | a :: r =>
    match joinVal a, joinVals r with
    | .ok s, .ok t => .ok (s ++ t)
    | .error m, _ => .error m
    | _, .error m => .error m

/-- The registered primitives, dispatched by registration name.  Modelled:
arithmetic, comparison, list operations, `insert` and the cursor
primitives.  `message`, `buffer-name`, `current-buffer`, `switch-to-buffer`
and `kill-buffer` are registered in the source but exercise host behaviour no
claim touches, and are left out of `globalFrame` below.  `/` is modelled on
integers (the source divides doubles); `<`/`>` only on two numbers or two
strings (JS coercion rules for other shapes are not modelled); neither is
used by any claim. -/
def primApply : String → List LispVal → EmacsState → Except String (LispVal × EmacsState)
  | "+", args, st =>
    match numArgs args with
    | .ok ns => .ok (.num (ns.foldl (· + ·) 0), st)
    | .error m => .error m
  | "-", args, st =>
    match args with
    | .num x :: rest =>
      match numArgs rest with
      | .ok ns => .ok (.num (x - ns.foldl (· + ·) 0), st)
      | .error m => .error m
    | _ => .error "TypeError"
  | "*", args, st =>
    match numArgs args with
    | .ok ns => .ok (.num (ns.foldl (· * ·) 1), st)
    | .error m => .error m
  | "/", args, st =>
    match args with
    | .num a :: .num b :: _ => .ok (.num (Int.tdiv a b), st)
    | _ => .error "TypeError"
  | "=", args, st =>
    match args with
    | a :: b :: _ =>
      if a = .undef || b = .undef then .error "TypeError"
      else .ok (.bool (decide (jsValue a = jsValue b)), st)
    | _ => .error "TypeError"
  | "<", args, st =>
    match args with
    | .num a :: .num b :: _ => .ok (.bool (decide (a < b)), st)
    | .str a :: .str b :: _ => .ok (.bool (decide (a < b)), st)
    | _ => .error "TypeError"
  | ">", args, st =>
    match args with
    | .num a :: .num b :: _ => .ok (.bool (decide (b < a)), st)
    | .str a :: .str b :: _ => .ok (.bool (decide (b < a)), st)
    | _ => .error "TypeError"
  | "list", args, st => .ok (.list (LispVals.ofList args), st)
  | "cons", args, st =>
    match args with
    | _ :: .undef :: _ => .error "TypeError"
    | a :: .list es :: _ => .ok (.list (.cons a es), st)
    | a :: _ :: _ => .ok (.list (.cons a .nil), st)
    | _ => .error "TypeError"
  | "car", args, st =>
    match args with
    | .undef :: _ => .error "TypeError"
    | .list es :: _ =>
      match es with
      | .nil => .ok (.undef, st)
      | .cons a _ => .ok (a, st)
    | _ :: _ => .ok (.null, st)
    | [] => .error "TypeError"
  | "cdr", args, st =>
    match args with
    | .undef :: _ => .error "TypeError"
    | .list es :: _ =>
      match es with
      | .nil => .ok (.list .nil, st)
      | .cons _ r => .ok (.list r, st)
    | _ :: _ => .ok (.null, st)
    | [] => .error "TypeError"
  | "insert", args, st =>
    match joinVals args with
    | .ok text => .ok (.null, apiInsert text st)
    | .error m => .error m
  | "point", _, st => .ok (.num (Int.ofNat (apiGetCursor st)), st)
  | "point-min", _, st => .ok (.num 0, st)
  | "point-max", _, st => .ok (.num (Int.ofNat (apiGetBufferContent st).length), st)
  | "goto-char", args, st =>
    match args with
    | .num k :: _ => .ok (.num k, apiSetCursor k st)
    | _ => .error "TypeError"
  | _, _, _ => .error "TypeError"

/-- Note on `car`/`cdr`: in JS an empty array is truthy, so
`args[0].elements ? args[0].elements[0] : mkNull()` takes the first branch on
an empty `LIST` and yields `undefined` (`.undef` here); `cdr` likewise yields
the empty `LIST`, not `Nil`.  See claim C1. -/
theorem primCar_empty (st : EmacsState) :
    primApply "car" [.list .nil] st = .ok (.undef, st) := rfl

-- --- Evaluator ---

abbrev EvalRes := Except String (LispVal × Env × EmacsState)

abbrev Ev := LispVal → Env → EmacsState → EvalRes

/-- The `progn` / body loop: evaluate each element in order, carrying the
last result (`mkNull()` initially). -/
def evalSeqWith (ev : Ev) : LispVals → LispVal → Env → EmacsState → EvalRes
  | .nil, last, env, st => .ok (last, env, st)
  | .cons e rest, _, env, st =>
    match ev e env st with
    | .ok (v, env1, st1) => evalSeqWith ev rest v env1 st1
    | .error m => .error m

/-- `elements.slice(1).map(e => evalLisp(e, env))`: left-to-right, threading
the (mutable in the source) environment and host state. -/
def evalArgsWith (ev : Ev) :
    LispVals → Env → EmacsState → Except String (List LispVal × Env × EmacsState)
  | .nil, env, st => .ok ([], env, st)
  | .cons e rest, env, st =>
    match ev e env st with
    | .ok (v, env1, st1) =>
      match evalArgsWith ev rest env1 st1 with
      | .ok (vs, env2, st2) => .ok (v :: vs, env2, st2)
      | .error m => .error m
    | .error m => .error m

/-- The `setq` pair loop: check the symbol, evaluate the value in the current
environment, `env.set` it (head frame only), remember it as the result.  A
trailing symbol without a value makes the source evaluate the JS `undefined`
expression, which crashes. -/
def evalSetqWith (ev : Ev) : LispVals → LispVal → Env → EmacsState → EvalRes
  | .nil, last, env, st => .ok (last, env, st)
  | .cons (.sym n) (.cons vE rest), _, env, st =>
    match ev vE env st with
    | .ok (v, env1, st1) => evalSetqWith ev rest v (envSet n v env1) st1
    | .error m => .error m
  | .cons (.sym _) .nil, _, _, _ => .error "TypeError"
  | .cons _ _, _, _, _ => .error "setq expects symbols"

/-- The `let` bindings loop: each initializer is evaluated in the *outer*
environment (threaded, since the source mutates it in place); the new frame is
accumulated separately.  A `(x e)` pair with a non-symbol `x` makes the source
bind the key `undefined` — unreachable by any lookup — after evaluating `e`;
it is modelled by running `e` and skipping the binding.  A binding list of
length 0 or 1 crashes in the source (`undefined.name` / evaluating
`undefined`).  Non-list, non-symbol binding entries are silently skipped. -/
def evalLetBindsWith (ev : Ev) :
    LispVals → Frame → Env → EmacsState → Except String (Frame × Env × EmacsState)
  | .nil, acc, env, st => .ok (acc, env, st)
  | .cons b rest, acc, env, st =>
    match b with
    | .list (.cons x (.cons e1 _)) =>
      match ev e1 env st with
      | .ok (v, env1, st1) =>
        evalLetBindsWith ev rest
          (match x with
           | .sym n => frameSet n v acc
           | _ => acc) env1 st1
      | .error m => .error m
    | .list _ => .error "TypeError"
    | .sym n => evalLetBindsWith ev rest (frameSet n .null acc) env st
    | _ => evalLetBindsWith ev rest acc env st

/-- `params.forEach((p, i) => activationRecord.define(p, args[i] || mkNull()))`:
pair parameters with arguments in order; missing trailing arguments — and the
falsy JS `undefined` value — default to `Nil`; surplus arguments are never
consulted. -/
def bindFrame : List String → List LispVal → Frame → Frame
  | [], _, acc => acc
  | p :: ps, [], acc => bindFrame ps [] (frameSet p .null acc)
  | p :: ps, a :: rest, acc =>
    bindFrame ps rest (frameSet p (match a with | .undef => .null | v => v) acc)

/-- `(defun name (params) ...)` parameter extraction.  The source maps
`e => e.name!`, so a non-symbol parameter yields an `undefined` name (an
unusable binding); modelled as an error (no claim exercises it). -/
def symNames : LispVals → Except String (List String)
  | .nil => .ok []
  | .cons (.sym n) rest =>
    match symNames rest with
    | .ok ns => .ok (n :: ns)
    | .error m => .error m
  | .cons _ _ => .error "TypeError"

/-- `evalLisp`.  Fuel bounds the recursion depth; every recursive call of the
source decrements it.  Self-evaluating forms return themselves (including the
`switch` default for `FUNC`/`PRIMITIVE`).  A non-empty list first dispatches
the special forms, then applies the evaluated head: a `PRIMITIVE` through
`primApply`, a `FUNC` in a fresh frame chained to the *calling* environment
(popped afterwards — the source discards the activation record). -/
def evalLisp : Nat → LispVal → Env → EmacsState → EvalRes
  | 0, _, _, _ => .error "out of fuel"
  | fuel + 1, expr, env, st =>
    match expr with
    | .num v => .ok (.num v, env, st)
    | .str v => .ok (.str v, env, st)
    | .bool v => .ok (.bool v, env, st)
    | .null => .ok (.null, env, st)
    | .undef => .error "TypeError"
    | .sym n =>
      match envGet n env with
      | .ok v => .ok (v, env, st)
      | .error m => .error m
    | .func ps b => .ok (.func ps b, env, st)
    | .prim n => .ok (.prim n, env, st)
    | .list .nil => .ok (.null, env, st)
    | .list (.cons head args) =>
      if head = .sym "quote" then
        match args with
        | .cons e _ => .ok (e, env, st)
        | .nil => .error "TypeError"
      else if head = .sym "setq" then
        evalSetqWith (evalLisp fuel) args .null env st
      else if head = .sym "if" then
        match args with
        | .cons c (.cons t els) =>
          (match evalLisp fuel c env st with
           | .ok (cv, env1, st1) =>
             if cv = .undef then .error "TypeError"
             else if lispIsTrue cv then evalLisp fuel t env1 st1
             else
               match els with
               | .cons e _ => evalLisp fuel e env1 st1
               | .nil => .ok (.null, env1, st1)
           | .error m => .error m)
        | .cons c .nil =>
          (match evalLisp fuel c env st with
           | .ok (cv, env1, st1) =>
             if cv = .undef then .error "TypeError"
             else if lispIsTrue cv then .error "TypeError"
             else .ok (.null, env1, st1)
           | .error m => .error m)
        | .nil => .error "TypeError"
      else if head = .sym "defun" then
        match args with
        | .cons (.sym nm) (.cons (.list ps) bodyRest) =>
          (match symNames ps with
           | .ok params =>
             .ok (.sym nm,
               envSet nm (.func params (.list (.cons (.sym "progn") bodyRest))) env,
               st)
           | .error m => .error m)
        | _ => .error "TypeError"
      else if head = .sym "progn" then
        evalSeqWith (evalLisp fuel) args .null env st
      else if head = .sym "let" then
        match args with
        | .cons (.list binds) body =>
          (match evalLetBindsWith (evalLisp fuel) binds [] env st with
           | .ok (frame, env1, st1) =>
             (match evalSeqWith (evalLisp fuel) body .null (frame :: env1) st1 with
              | .ok (v, envB, stB) => .ok (v, envB.tail, stB)
              | .error m => .error m)
           | .error m => .error m)
        | _ => .error "TypeError"
      else if head = .sym "interactive" then .ok (.null, env, st)
      else
        match evalLisp fuel head env st with
        | .ok (fn, env1, st1) =>
          (match evalArgsWith (evalLisp fuel) args env1 st1 with
           | .ok (argv, env2, st2) =>
             (match fn with
              | .prim pname =>
                (match primApply pname argv st2 with
                 | .ok (v, st3) => .ok (v, env2, st3)
                 | .error m => .error m)
              | .func params body =>
                (match evalLisp fuel body (bindFrame params argv [] :: env2) st2 with
                 | .ok (v, env3, st3) => .ok (v, env3.tail, st3)
                 | .error m => .error m)
              | _ => .error "Invalid function call")
           | .error m => .error m)
        | .error m => .error m

-- --- Global environment, initial host state, entry point ---

/-- `createGlobalEnv` restricted to the modelled primitives (see
`primApply`'s comment for the omitted host registrations). -/
def globalFrame : Frame :=
  [("+", .prim "+"), ("-", .prim "-"), ("*", .prim "*"), ("/", .prim "/"),
   ("=", .prim "="), ("<", .prim "<"), (">", .prim ">"),
   ("list", .prim "list"), ("cons", .prim "cons"),
   ("car", .prim "car"), ("cdr", .prim "cdr"),
   ("insert", .prim "insert"), ("point", .prim "point"),
   ("point-min", .prim "point-min"), ("point-max", .prim "point-max"),
   ("goto-char", .prim "goto-char")]

def initialEnv : Env := [globalFrame]

/-- An editor state whose single, active buffer is empty with the cursor at
offset 0. -/
def scratchBuffer : Buffer :=
  { id := "buf1", name := "scratch", content := "", cursorPosition := 0,
    isModified := false }

def initialState : EmacsState :=
  { buffers := [scratchBuffer], activeBufferId := "buf1" }

/-- The eval entry point: `parse` then `evalLisp`. -/
def runString (fuel : Nat) (s : String) (env : Env) (st : EmacsState) : EvalRes :=
  match parse s with
  | .ok e => evalLisp fuel e env st
  | .error m => .error m

-- --- S-expression boundary scanner ---

/-- The backward paren scan of `findLastSexp`: depth starts at 1, `)`
increments, `(` decrements; reaching depth 0 returns the substring from that
`(` through the original `)` (accumulated in `acc`, forward order); running
out of text leaves the fall-through `return null`. -/
def scanParen : Nat → List Char → List Char → Option (List Char)
  | _, [], _ => none
  | d, c :: r, acc =>
    let d1 := if c = ')' then d + 1 else if c = '(' then d - 1 else d
    if d1 = 0 then some (c :: acc) else scanParen d1 r (c :: acc)

/-- The backward string scan: stop at a `"` not immediately preceded by a
backslash (`text[-1]` reads as `undefined`, which is not a backslash). -/
def stringScanBack : List Char → List Char → Option (List Char)
  | [], _ => none
  | c :: r, acc =>
    if c = '"' && !(r.head? == some '\\') then some (c :: acc)
    else stringScanBack r (c :: acc)

/-- `findLastSexp`.  Modelled for `cursor ≤ text.length` (both call sites pass
the buffer cursor, which is clamped to the content length).  When the string
scan runs off the front the source computes `text.slice(-1, end)`, i.e. a
slice starting at `text.length - 1` — a quirk reproduced verbatim here. -/
def findLastSexp (text : String) (cursor : Nat) : Option String :=
  let rev1 := (text.toList.take cursor).reverse.dropWhile isWs
  match rev1 with
  | [] => none
  | c :: rest =>
    if c = ')' then (scanParen 1 rest [c]).map String.mk
    else if c = '"' then
      match stringScanBack rest [c] with
      | some res => some (String.mk res)
      | none =>
        some (String.mk
          ((text.toList.drop (text.length - 1)).take (rev1.length - (text.length - 1))))
    else some (String.mk ((rev1.takeWhile atomChar).reverse))

deriving instance DecidableEq for Except

-- Sanity checks of the executable model.
example : parse "(+ 1 2)" =
    .ok (.list (.cons (.sym "+") (.cons (.num 1) (.cons (.num 2) .nil)))) := by decide
example : runString 10 "(+ 2 2)" initialEnv initialState =
    .ok (.num 4, initialEnv, initialState) := by decide
example : runString 10 "(car (quote (7 8)))" initialEnv initialState =
    .ok (.num 7, initialEnv, initialState) := by decide
example : findLastSexp "(foo (bar 1))" 13 = some "(foo (bar 1))" := by decide
example : findLastSexp "foo bar" 7 = some "bar" := by decide

-- --- Parser metatheory: the loop and expression parsers only consume input,
-- and the fuel supplied by `parse` never runs out. ---

theorem dropWhile_len (p : Char → Bool) (l : List Char) :
    (l.dropWhile p).length ≤ l.length := by
  induction l with
  | nil => simp
  | cons c r ih =>
    by_cases h : p c
    · simp [List.dropWhile, h]; omega
    · simp [List.dropWhile, h]

theorem skipWs_len (l : List Char) : (skipWs l).length ≤ l.length :=
  dropWhile_len isWs l

theorem parseStrBody_rest_le : ∀ l : List Char, (parseStrBody l).2.length ≤ l.length := by
  intro l
  induction l using parseStrBody.induct with
  | case1 => rw [parseStrBody.eq_def]
  | case2 r2 => rw [parseStrBody.eq_def]; simp
  | case3 h => rw [parseStrBody.eq_def]; simp
  | case4 c2 r2 s rest heq hne ih =>
    rw [parseStrBody.eq_def]
    rw [heq] at ih
    simp [heq] at ih ⊢
    omega
  | case5 c2 r2 h1 h2 s rest heq ih =>
    rw [parseStrBody.eq_def]
    rw [heq] at ih
    simp [h1, h2, heq] at ih ⊢
    omega

theorem parseAtom_rest_le (l : List Char) : (parseAtom l).2.length ≤ l.length :=
  dropWhile_len atomChar l

theorem parseListWith_rest_le (p : List Char → POut)
    (hp : ∀ l v r, p l = .ok v r → r.length ≤ l.length) :
    ∀ f l acc v r, parseListWith p f l acc = .ok v r → r.length ≤ l.length := by
  intro f
  induction f with
  | zero => intro l acc v r h; simp [parseListWith] at h
  | succ f ih =>
    intro l acc v r h
    match l with
    | [] => simp [parseListWith] at h
    | c :: l0 =>
      rw [parseListWith] at h
      split at h
      case h_1 r1 heq =>
        injection h with hv hr
        subst hr
        have h3 := skipWs_len (c :: l0)
        rw [heq] at h3
        simp at h3 ⊢
        omega
      case h_2 => cases h
      case h_3 =>
        split at h
        case h_1 v1 r1 heq =>
          have h1 := hp _ _ _ heq
          have h2 := ih _ _ _ _ h
          have h3 := skipWs_len (c :: l0)
          omega
        case h_2 hne => exact (hne v r h).elim

theorem skipWs_idem (l : List Char) : skipWs (skipWs l) = skipWs l := by
  induction l with
  | nil => rfl
  | cons c r ih =>
    by_cases h : isWs c
    · simpa [skipWs, List.dropWhile, h] using ih
    · simp [skipWs, List.dropWhile, h]

theorem skipWs_head_not_ws (l : List Char) (c : Char) (r0 : List Char)
    (h : skipWs l = c :: r0) : isWs c = false := by
  have hi := skipWs_idem l
  rw [h] at hi
  by_contra hc
  simp at hc
  have hlen := skipWs_len r0
  rw [show skipWs (c :: r0) = skipWs r0 by simp [skipWs, List.dropWhile, hc]] at hi
  have := congrArg List.length hi
  simp at this
  omega

theorem cons_skipWs_len (l : List Char) (c : Char) (r0 : List Char)
    (h : skipWs l = c :: r0) : r0.length < l.length := by
  have := skipWs_len l
  rw [h] at this
  simp at this
  omega

theorem parseExprF_rest_le :
    ∀ fuel l v r, parseExprF fuel l = .ok v r → r.length ≤ l.length := by
  intro fuel
  induction fuel with
  | zero => intro l v r h; simp [parseExprF] at h
  | succ fuel ih =>
    intro l v r h
    rw [parseExprF] at h
    split at h
    case h_1 heq =>
      injection h with hv hr
      subst hr
      simp
    case h_2 c r0 heq =>
      have hr0 : r0.length < l.length := cons_skipWs_len l c r0 heq
      split_ifs at h with h1 h2 h3
      · rcases hsb : parseStrBody r0 with ⟨s, rest⟩
        rw [hsb] at h
        injection h with hv hrr
        subst hrr
        have := parseStrBody_rest_le r0
        rw [hsb] at this
        simp at this
        omega
      · have := parseListWith_rest_le (parseExprF fuel) (ih) _ _ _ _ _ h
        omega
      · split at h
        next v1 r1 heq2 =>
          injection h with hv hrr
          subst hrr
          have := ih _ _ _ heq2
          omega
        next hne => exact ((hne v r h).elim)
      · injection h with hv hrr
        subst hrr
        have : ((c :: r0).dropWhile atomChar).length ≤ (c :: r0).length :=
          dropWhile_len atomChar (c :: r0)
        have h4 := skipWs_len l
        rw [heq] at h4
        simp [parseAtom] at this ⊢
        omega

theorem parseExprF_consume (fuel : Nat) (l : List Char) (c : Char) (r0 : List Char)
    (v : LispVal) (r : List Char) (hsw : skipWs l = c :: r0) (hc : c ≠ ')')
    (h : parseExprF (fuel + 1) l = .ok v r) : r.length ≤ r0.length := by
  rw [parseExprF] at h
  split at h
  case h_1 heq => rw [hsw] at heq; cases heq
  case h_2 c1 r1 heq =>
    rw [hsw] at heq
    injection heq with hce hre
    subst hce
    subst hre
    split_ifs at h with h1 h2 h3
    · rcases hsb : parseStrBody r0 with ⟨s, rest⟩
      rw [hsb] at h
      injection h with hv hrr
      subst hrr
      have := parseStrBody_rest_le r0
      rw [hsb] at this
      exact this
    · exact parseListWith_rest_le (parseExprF fuel) (parseExprF_rest_le fuel) _ _ _ _ _ h
    · split at h
      next v1 r1 heq2 =>
        injection h with hv hrr
        subst hrr
        exact parseExprF_rest_le fuel _ _ _ heq2
      next hne => exact ((hne v r h).elim)
    · injection h with hv hrr
      subst hrr
      have hws : isWs c = false := skipWs_head_not_ws l c r0 hsw
      have hac : atomChar c = true := by
        simp [atomChar, hws]
        constructor
        · intro hcc; exact h2 (by simp [hcc])
        · intro hcc; exact hc (by simp [hcc])
      simp [parseAtom, List.dropWhile, hac]
      exact dropWhile_len atomChar r0

theorem parseListWith_not_nofuel (p : List Char → POut)
    (hps : ∀ l c r0 v r, skipWs l = c :: r0 → c ≠ ')' → p l = .ok v r →
      r.length ≤ r0.length)
    (N : Nat) (hpn : ∀ l, l.length ≤ N → p l ≠ .nofuel) :
    ∀ f l acc, l.length < f → l.length ≤ N → parseListWith p f l acc ≠ .nofuel := by
  intro f
  induction f with
  | zero => intro l acc h1 h2; omega
  | succ f ih =>
    intro l acc h1 h2
    match l with
    | [] => simp [parseListWith]
    | c :: l0 =>
      rw [parseListWith]
      split
      case h_1 => simp
      case h_2 => simp
      case h_3 hne1 hne2 =>
        cases hp1 : p (skipWs (c :: l0)) with
        | ok v1 r1 =>
          rcases hsw : skipWs (c :: l0) with _ | ⟨c1, r2⟩
          · exact (hne2 hsw).elim
          · have hcc : c1 ≠ ')' := by
              intro hh
              exact hne1 r2 (by rw [hsw, hh])
            have hidem : skipWs (skipWs (c :: l0)) = c1 :: r2 := by
              rw [skipWs_idem]; exact hsw
            have hstep := hps (skipWs (c :: l0)) c1 r2 v1 r1 hidem hcc hp1
            have hr2 : r2.length < (c :: l0).length := cons_skipWs_len _ _ _ hsw
            have := ih r1 (v1 :: acc) (by omega) (by omega)
            simpa [hp1] using this
        | unclosed => simp [hp1]
        | nofuel =>
          have hle : (skipWs (c :: l0)).length ≤ N := le_trans (skipWs_len _) h2
          exact (hpn _ hle hp1).elim

theorem parseExprF_not_nofuel :
    ∀ fuel l, l.length < fuel → parseExprF fuel l ≠ .nofuel := by
  intro fuel
  induction fuel with
  | zero => intro l h; omega
  | succ fuel ih =>
    intro l hl
    rw [parseExprF]
    split
    case h_1 => simp
    case h_2 c r0 heq =>
      have hr0 : r0.length < l.length := cons_skipWs_len l c r0 heq
      split_ifs with h1 h2 h3
      · rcases hsb : parseStrBody r0 with ⟨s, rest⟩
        simp [hsb]
      · have hps : ∀ l2 c2 r2 v r, skipWs l2 = c2 :: r2 → c2 ≠ ')' →
            parseExprF fuel l2 = .ok v r → r.length ≤ r2.length := by
          match fuel with
          | 0 => intro l2 c2 r2 v r _ _ hk; simp [parseExprF] at hk
          | g + 1 =>
            exact fun l2 c2 r2 v r hsw hcc hk => parseExprF_consume g l2 c2 r2 v r hsw hcc hk
        exact parseListWith_not_nofuel (parseExprF fuel) hps
          r0.length (fun l2 hl2 => ih l2 (by omega)) (r0.length + 1) r0 []
          (by omega) (by omega)
      · cases hq : parseExprF fuel r0 with
        | ok v1 r1 => simp [hq]
        | unclosed => simp [hq]
        | nofuel => exact ((ih r0 (by omega) hq).elim)
      · simp

theorem parse_ok_or_unclosed (s : String) :
    (∃ v, parse s = .ok v) ∨ parse s = .error "Unclosed list" := by
  unfold parse
  cases h : parseExprF (s.toList.length + 1) s.toList with
  | ok v r => exact Or.inl ⟨v, rfl⟩
  | unclosed => exact Or.inr rfl
  | nofuel => exact ((parseExprF_not_nofuel (s.toList.length + 1) s.toList (by omega) h).elim)

-- --- Round-trip support: printed numbers parse back ---

theorem digitCh_isDigit (d : Nat) : isDigitCh (digitCh d) = true := by
  unfold digitCh
  split <;> decide

theorem digitCh_toNat (d : Nat) (h : d < 10) : (digitCh d).toNat = 48 + d := by
  interval_cases d <;> decide

theorem natCharsGo_shift :
    ∀ n f acc, n < f → natCharsGo f n acc = natChars n ++ acc := by
  intro n
  induction n using Nat.strong_induction_on with
  | _ n ih =>
    intro f acc hf
    match f with
    | g + 1 =>
      by_cases h10 : n < 10
      · simp [natCharsGo, natChars, h10]
      · have hdiv : n / 10 < n := Nat.div_lt_self (by omega) (by omega)
        rw [natCharsGo]
        simp only [h10, if_false]
        rw [ih (n / 10) hdiv g (digitCh (n % 10) :: acc) (by omega)]
        have : natChars n = natChars (n / 10) ++ [digitCh (n % 10)] := by
          unfold natChars
          rw [natCharsGo]
          simp only [h10, if_false]
          rw [ih (n / 10) hdiv n (digitCh (n % 10) :: []) (by omega)]
          rfl
        rw [this]
        simp

theorem natChars_unfold (n : Nat) :
    natChars n = if n < 10 then [digitCh n] else natChars (n / 10) ++ [digitCh (n % 10)] := by
  by_cases h10 : n < 10
  · simp [natChars, natCharsGo, h10]
  · have hdiv : n / 10 < n := Nat.div_lt_self (by omega) (by omega)
    simp only [h10, if_false]
    unfold natChars
    rw [natCharsGo]
    simp only [h10, if_false]
    rw [natCharsGo_shift (n / 10) n (digitCh (n % 10) :: []) (by omega)]
    rfl

theorem natChars_ne_nil (n : Nat) : natChars n ≠ [] := by
  rw [natChars_unfold]
  by_cases h10 : n < 10 <;> simp [h10]

theorem natChars_digits : ∀ n, ∀ c ∈ natChars n, isDigitCh c = true := by
  intro n
  induction n using Nat.strong_induction_on with
  | _ n ih =>
    intro c hc
    rw [natChars_unfold] at hc
    by_cases h10 : n < 10
    · simp [h10] at hc
      subst hc
      exact digitCh_isDigit n
    · simp [h10] at hc
      rcases hc with hc | hc
      · exact ih (n / 10) (Nat.div_lt_self (by omega) (by omega)) c hc
      · subst hc
        exact digitCh_isDigit (n % 10)

theorem digitsToNat_app_one (xs : List Char) (c : Char) :
    digitsToNat (xs ++ [c]) = 10 * digitsToNat xs + (c.toNat - 48) := by
  simp [digitsToNat, List.foldl_append]

theorem digitsToNat_natChars : ∀ n, digitsToNat (natChars n) = n := by
  intro n
  induction n using Nat.strong_induction_on with
  | _ n ih =>
    rw [natChars_unfold]
    by_cases h10 : n < 10
    · simp [h10, digitsToNat, digitCh_toNat n h10]
    · simp only [h10, if_false]
      rw [digitsToNat_app_one]
      rw [ih (n / 10) (Nat.div_lt_self (by omega) (by omega))]
      rw [digitCh_toNat (n % 10) (by omega)]
      omega

theorem digit_not_special (c : Char) (h : isDigitCh c = true) :
    isWs c = false ∧ atomChar c = true ∧ c ≠ '"' ∧ c ≠ '(' ∧ c ≠ qCh := by
  simp [isDigitCh] at h
  have hws : isWs c = false := by
    by_contra hw
    simp at hw
    simp [isWs] at hw
    rcases hw with ((h1 | h1) | h1) | h1 <;> (subst h1; revert h; decide)
  refine ⟨hws, ?_, ?_, ?_, ?_⟩
  · simp [atomChar, hws]
    constructor <;> (intro h1; subst h1; revert h; decide)
  · intro h1; subst h1; revert h; decide
  · intro h1; subst h1; revert h; decide
  · intro h1; subst h1; revert h; decide

theorem numericTok_digits (c : Char) (cs : List Char) (hc : c ≠ '-')
    (hall : (c :: cs).all isDigitCh = true) :
    numericTok (c :: cs) = true ∧ parseIntTok (c :: cs) = Int.ofNat (digitsToNat (c :: cs)) := by
  constructor
  · rw [numericTok.eq_def]
    split
    next ds heq =>
      injection heq with h1 h2
      exact absurd h1 hc
    next heq => simp_all
  · rw [parseIntTok.eq_def]
    split
    next ds heq =>
      injection heq with h1 h2
      exact absurd h1 hc
    next heq => rfl

theorem classifyTok_intChars (n : Int) : classifyTok (intChars n) = .num n := by
  match n with
  | .ofNat m =>
    have hne := natChars_ne_nil m
    rcases hch : natChars m with _ | ⟨c, cs⟩
    · exact absurd hch hne
    · have hdig := natChars_digits m
      rw [hch] at hdig
      have hcd : isDigitCh c = true := hdig c (by simp)
      have hcm : c ≠ '-' := by
        intro h1
        subst h1
        revert hcd
        decide
      have hall : (c :: cs).all isDigitCh = true := by
        simp only [List.all_eq_true]
        intro x hx
        exact hdig x hx
      obtain ⟨hnum, hval⟩ := numericTok_digits c cs hcm hall
      have htok1 : (c :: cs) ≠ ['t'] := by
        intro h1
        injection h1 with h2 h3
        subst h2
        revert hcd
        decide
      have htok2 : (c :: cs) ≠ ['n', 'i', 'l'] := by
        intro h1
        injection h1 with h2 h3
        subst h2
        revert hcd
        decide
      show classifyTok (intChars (Int.ofNat m)) = .num (Int.ofNat m)
      have hic : intChars (Int.ofNat m) = c :: cs := hch
      rw [hic]
      unfold classifyTok
      rw [if_neg htok1, if_neg htok2, if_pos hnum, hval]
      rw [← hch]
      rw [digitsToNat_natChars]
  | .negSucc m =>
    have hne := natChars_ne_nil (m + 1)
    have hdig := natChars_digits (m + 1)
    have hall : (natChars (m + 1)).all isDigitCh = true := by
      simp only [List.all_eq_true]
      intro x hx
      exact hdig x hx
    show classifyTok ('-' :: natChars (m + 1)) = .num (Int.negSucc m)
    have htok1 : ('-' :: natChars (m + 1)) ≠ ['t'] := by
      intro h1
      injection h1 with h2 h3
      revert h2
      decide
    have htok2 : ('-' :: natChars (m + 1)) ≠ ['n', 'i', 'l'] := by
      intro h1
      injection h1 with h2 h3
      revert h2
      decide
    have hnum : numericTok ('-' :: natChars (m + 1)) = true := by
      rw [numericTok.eq_def]
      rcases hch : natChars (m + 1) with _ | ⟨c, cs⟩
      · exact absurd hch hne
      · simp only []
        rw [← hch]
        simp [hall, hne]
    unfold classifyTok
    rw [if_neg htok1, if_neg htok2, if_pos hnum]
    show LispVal.num (parseIntTok ('-' :: natChars (m + 1))) = .num (Int.negSucc m)
    rw [parseIntTok]
    rw [digitsToNat_natChars]
    congr 1

/-- The character after a printed atom must not extend it: end of input, or a
whitespace/paren delimiter. -/
def atomEnd : List Char → Bool
  | [] => true
  | c :: _ => !atomChar c

theorem takeWhile_all_app (p : Char → Bool) :
    ∀ (a rest : List Char), a.all p = true →
      (∀ c r2, rest = c :: r2 → p c = false) →
      (a ++ rest).takeWhile p = a ∧ (a ++ rest).dropWhile p = rest := by
  intro a
  induction a with
  | nil =>
    intro rest _ hrest
    rcases rest with _ | ⟨c, r2⟩
    · simp
    · simp [List.takeWhile, List.dropWhile, hrest c r2 rfl]
  | cons x xs ih =>
    intro rest hall hrest
    simp only [List.all_cons, Bool.and_eq_true] at hall
    have := ih rest hall.2 hrest
    simp [List.takeWhile, List.dropWhile, hall.1, this.1, this.2]

theorem atomEnd_head (rest : List Char) (h : atomEnd rest = true) :
    ∀ c r2, rest = c :: r2 → atomChar c = false := by
  intro c r2 hr
  subst hr
  simpa [atomEnd] using h

theorem skipWs_cons_noWs (c : Char) (l : List Char) (h : isWs c = false) :
    skipWs (c :: l) = c :: l := by
  simp [skipWs, List.dropWhile, h]

/-- Parsing a printed atom token followed by a delimiter yields exactly the
classified token. -/
theorem parseExprF_atom (c : Char) (tl rest : List Char) (fuel : Nat)
    (h1 : (c :: tl).all atomChar = true) (h2 : atomEnd rest = true)
    (h3 : c ≠ '"') (h4 : c ≠ '(') (h5 : c ≠ qCh) :
    parseExprF (fuel + 1) ((c :: tl) ++ rest) = .ok (classifyTok (c :: tl)) rest := by
  have hac : atomChar c = true := by
    simp only [List.all_cons, Bool.and_eq_true] at h1
    exact h1.1
  have hws : isWs c = false := by
    by_contra hw
    simp at hw
    simp [atomChar, hw] at hac
  rw [parseExprF]
  rw [show skipWs ((c :: tl) ++ rest) = (c :: tl) ++ rest from
    skipWs_cons_noWs c (tl ++ rest) hws]
  simp only [List.cons_append]
  rw [if_neg h3, if_neg h4, if_neg h5]
  obtain ⟨ht, hd⟩ := takeWhile_all_app atomChar (c :: tl) rest h1 (atomEnd_head rest h2)
  simp only [List.cons_append] at ht hd
  simp only [parseAtom]
  rw [ht, hd]

theorem parseStrBody_clean :
    ∀ (s rest : List Char), (∀ c ∈ s, c ≠ '"' ∧ c ≠ '\\') →
      parseStrBody (s ++ '"' :: rest) = (s, rest) := by
  intro s
  induction s with
  | nil => intro rest _; rw [parseStrBody.eq_def]; simp
  | cons x xs ih =>
    intro rest hok
    have hx := hok x (by simp)
    rw [List.cons_append, parseStrBody.eq_def]
    simp only [hx.1, hx.2, if_false]
    rw [ih rest (fun c hc => hok c (by simp [hc]))]

theorem repPair_id (a b c : Char) :
    ∀ s : List Char, (∀ x ∈ s, x ≠ a) → repPair a b c s = s := by
  intro s
  induction s using repPair.induct a b c with
  | case1 x y r hxy ih =>
    intro hok
    exact absurd (hok x (by simp)) (by simp at hxy; simp [hxy.1])
  | case2 x y r hxy ih =>
    intro hok
    rw [repPair.eq_def]
    simp only [hxy, if_false]
    rw [ih (fun z hz => hok z (by simp at hz ⊢; tauto))]
    simp
  | case3 l h =>
    intro hok
    rw [repPair.eq_def]
    split
    next x1 y1 r1 => exact ((h x1 y1 r1 rfl).elim)
    next => rfl

theorem unescape_clean (s : List Char) (hok : ∀ x ∈ s, x ≠ '\\') :
    unescape s = s := by
  unfold unescape
  rw [repPair_id _ _ _ s hok, repPair_id _ _ _ s hok]

-- --- Values built purely from literal constructors ---

/-- A string whose printed form re-parses verbatim: no `"` (the printer does
not escape) and no `\\` (the reader's escape decoding would alter it). -/
def strOk (s : String) : Bool := s.toList.all (fun c => !(c = '"' || c = '\\'))

mutual
/-- A value built purely from `Number`/`String`/`Bool`/`Nil`/`List`
constructors that survives the print/parse round trip: `Bool false` is
excluded (it prints as `nil`), strings are `strOk`, and numbers are bounded
by `10 ^ 21` in magnitude.  The bound is program-forced: JS renders integral
doubles of magnitude `≥ 1e21` exponentially (`String(1e21)` is `"1e+21"`),
and the re-parse of such a rendering is a Symbol, so the source itself fails
the round trip there.  Below the bound the source prints plain decimal and
the integral model agrees with it exactly.  (Non-integral numbers such as
`1.5`, which the source does round-trip when rendered without an exponent,
lie outside this integer-valued model and are not quantified over.) -/
def pureVal : LispVal → Bool
  | .num n => decide (n.natAbs < 10 ^ 21)
  | .str s => strOk s
  | .bool v => v
  | .null => true
  | .list es => pureVals es
  | _ => false

def pureVals : LispVals → Bool
  | .nil => true
  | .cons e r => pureVal e && pureVals r
end

-- --- LispVals utilities for the round trip ---

def LispVals.append : LispVals → LispVals → LispVals
  | .nil, ys => ys
  | .cons a r, ys => .cons a (LispVals.append r ys)

theorem LispVals.append_nil : ∀ es : LispVals, es.append .nil = es
  | .nil => rfl
  | .cons a r => by
    show LispVals.cons a (r.append .nil) = LispVals.cons a r
    rw [LispVals.append_nil r]

theorem LispVals.append_assoc :
    ∀ a b c : LispVals, (a.append b).append c = a.append (b.append c)
  | .nil, _, _ => rfl
  | .cons x r, b, c => by
    show LispVals.cons x ((r.append b).append c) = LispVals.cons x (r.append (b.append c))
    rw [LispVals.append_assoc r b c]

theorem LispVals.ofList_app :
    ∀ xs ys : List LispVal,
      LispVals.ofList (xs ++ ys) = (LispVals.ofList xs).append (LispVals.ofList ys)
  | [], _ => rfl
  | a :: r, ys => by
    show LispVals.cons a (LispVals.ofList (r ++ ys)) = _
    rw [LispVals.ofList_app r ys]
    rfl

theorem LispVals.ofList_rev_cons (e : LispVal) (acc : List LispVal) (es : LispVals) :
    (LispVals.ofList ((e :: acc).reverse)).append es =
      (LispVals.ofList acc.reverse).append (.cons e es) := by
  rw [List.reverse_cons, LispVals.ofList_app, LispVals.append_assoc]
  rfl

theorem valSize_mem (e : LispVal) :
    ∀ es : LispVals, e ∈ es.toList → valSize e < valsSize es + 1
  | .nil => by intro h; simp [LispVals.toList] at h
  | .cons a r => by
    intro h
    simp [LispVals.toList] at h
    rcases h with h | h
    · subst h
      simp [valsSize]
      omega
    · have := valSize_mem e r h
      simp [valsSize]
      omega

theorem pureVals_mem (e : LispVal) :
    ∀ es : LispVals, e ∈ es.toList → pureVals es = true → pureVal e = true
  | .nil => by intro h; simp [LispVals.toList] at h
  | .cons a r => by
    intro h hp
    simp [pureVals, Bool.and_eq_true] at hp
    simp [LispVals.toList] at h
    rcases h with h | h
    · subst h; exact hp.1
    · exact pureVals_mem e r h hp.2

/-- The printed tail of a list's elements: each later element is preceded by
the joining space. -/
def printTail : LispVals → List Char
  | .nil => []
  | .cons e r => ' ' :: printL e ++ printTail r

theorem printLs_eq : ∀ (e : LispVal) (r : LispVals),
    printLs (.cons e r) = printL e ++ printTail r
  | e, .nil => by simp [printLs, printTail]
  | e, .cons e2 r2 => by
    rw [printLs, printLs_eq e2 r2]
    simp [printTail]

theorem printL_ne_nil (v : LispVal) (hv : pureVal v = true) : printL v ≠ [] := by
  match v with
  | .num n =>
    match n with
    | .ofNat m => exact natChars_ne_nil m
    | .negSucc m => simp [printL, intChars]
  | .str s => simp [printL]
  | .bool b =>
    cases b
    · simp [pureVal] at hv
    · simp [printL]
  | .null => simp [printL]
  | .list es => simp [printL]
  | .sym s => simp [pureVal] at hv
  | .func ps b => simp [pureVal] at hv
  | .prim s => simp [pureVal] at hv
  | .undef => simp [pureVal] at hv

theorem printL_head_facts (v : LispVal) (hv : pureVal v = true) :
    ∃ c tl, printL v = c :: tl ∧ isWs c = false ∧ c ≠ ')' := by
  match v with
  | .num n =>
    match n with
    | .ofNat m =>
      rcases hch : natChars m with _ | ⟨c, cs⟩
      · exact absurd hch (natChars_ne_nil m)
      · have hdig := natChars_digits m
        rw [hch] at hdig
        have hcd := hdig c (by simp)
        obtain ⟨hws, hat, _, _, _⟩ := digit_not_special c hcd
        refine ⟨c, cs, hch, hws, ?_⟩
        intro hh
        subst hh
        revert hcd
        decide
    | .negSucc m => exact ⟨'-', natChars (m + 1), rfl, by decide, by decide⟩
  | .str s => exact ⟨'"', s.toList ++ ['"'], rfl, by decide, by decide⟩
  | .bool b =>
    cases b
    · simp [pureVal] at hv
    · exact ⟨'t', [], rfl, by decide, by decide⟩
  | .null => exact ⟨'n', ['i', 'l'], rfl, by decide, by decide⟩
  | .list es => exact ⟨'(', printLs es ++ [')'], rfl, by decide, by decide⟩
  | .sym s => simp [pureVal] at hv
  | .func ps b => simp [pureVal] at hv
  | .prim s => simp [pureVal] at hv
  | .undef => simp [pureVal] at hv

theorem valSize_pos : ∀ v : LispVal, 1 ≤ valSize v := by
  intro v
  match v with
  | .list es => simp [valSize]
  | .sym _ | .num _ | .str _ | .func _ _ | .prim _ | .bool _ | .null | .undef =>
    simp [valSize]

theorem atomEnd_printTail (es : LispVals) (rest : List Char) :
    atomEnd (printTail es ++ ')' :: rest) = true := by
  cases es with
  | nil => rfl
  | cons e r => rfl

theorem intChars_facts (n : Int) :
    (intChars n).all atomChar = true ∧
      ∃ c tl, intChars n = c :: tl ∧ c ≠ '"' ∧ c ≠ '(' ∧ c ≠ qCh := by
  match n with
  | .ofNat m =>
    have hdig := natChars_digits m
    constructor
    · simp only [List.all_eq_true]
      intro c hc
      exact (digit_not_special c (hdig c hc)).2.1
    · rcases hch : natChars m with _ | ⟨c, cs⟩
      · exact absurd hch (natChars_ne_nil m)
      · have hcd := hdig c (by rw [hch]; simp)
        obtain ⟨_, _, hq, hp, hqc⟩ := digit_not_special c hcd
        exact ⟨c, cs, hch, hq, hp, hqc⟩
  | .negSucc m =>
    have hdig := natChars_digits (m + 1)
    constructor
    · show (('-' :: natChars (m + 1)).all atomChar) = true
      simp only [List.all_cons, Bool.and_eq_true]
      refine ⟨by decide, ?_⟩
      simp only [List.all_eq_true]
      intro c hc
      exact (digit_not_special c (hdig c hc)).2.1
    · exact ⟨'-', natChars (m + 1), rfl, by decide, by decide, by decide⟩

/-- The `parseList` loop consumes a printed, space-separated element tail up to
the closing paren, appending the parsed elements to the accumulator. -/
theorem roundTail (f : Nat) :
    ∀ (es : LispVals) (acc : List LispVal) (rest : List Char) (g : Nat),
      (∀ e, e ∈ es.toList → ∀ rest2, atomEnd rest2 = true →
        (printL e).length + rest2.length + 1 ≤ f →
        parseExprF f (printL e ++ rest2) = .ok e rest2) →
      pureVals es = true →
      (printTail es ++ ')' :: rest).length < g →
      (printTail es ++ ')' :: rest).length + 1 ≤ f →
      parseListWith (parseExprF f) g (printTail es ++ ')' :: rest) acc =
        .ok (.list ((LispVals.ofList acc.reverse).append es)) rest
  | .nil => by
    intro acc rest g hel hpure hfit hflen
    match g with
    | 0 => simp at hfit
    | g + 1 =>
      rw [LispVals.append_nil]
      show parseListWith (parseExprF f) (g + 1) (')' :: rest) acc = _
      rw [parseListWith]
      rw [show skipWs (')' :: rest) = ')' :: rest from skipWs_cons_noWs ')' rest (by decide)]
      rfl
  | .cons e es' => by
    intro acc rest g hel hpure hfit hflen
    match g with
    | 0 => simp at hfit
    | g + 1 =>
      have hpe : pureVal e = true := by
        have := pureVals_mem e (.cons e es') (by simp [LispVals.toList]) hpure
        exact this
      obtain ⟨c, tl, hct, hws, hcp⟩ := printL_head_facts e hpe
      have hne := printL_ne_nil e hpe
      show parseListWith (parseExprF f) (g + 1)
        ((' ' :: printL e ++ printTail es') ++ ')' :: rest) acc = _
      have hrw : (' ' :: printL e ++ printTail es') ++ ')' :: rest =
          ' ' :: (printL e ++ (printTail es' ++ ')' :: rest)) := by simp
      rw [hrw]
      rw [parseListWith]
      have hsw : skipWs (' ' :: (printL e ++ (printTail es' ++ ')' :: rest))) =
          printL e ++ (printTail es' ++ ')' :: rest) := by
        show List.dropWhile isWs _ = _
        rw [List.dropWhile]
        simp only [show isWs ' ' = true by decide, if_true]
        rw [hct]
        rw [List.cons_append]
        exact skipWs_cons_noWs c (tl ++ (printTail es' ++ ')' :: rest)) hws
      split
      case h_1 r1 heq =>
        rw [hsw, hct, List.cons_append] at heq
        injection heq with hc1 hr1
        exact absurd hc1 hcp
      case h_2 heq =>
        rw [hsw, hct, List.cons_append] at heq
        cases heq
      case h_3 hne1 hne2 =>
        rw [hsw]
        have hae : atomEnd (printTail es' ++ ')' :: rest) = true :=
          atomEnd_printTail es' rest
        have hlen2 : (printL e).length + (printTail es' ++ ')' :: rest).length + 1 ≤ f := by
          have : (' ' :: (printL e ++ (printTail es' ++ ')' :: rest))).length =
              1 + (printL e).length + (printTail es' ++ ')' :: rest).length := by
            simp
            omega
          rw [show printTail (.cons e es') ++ ')' :: rest =
            ' ' :: (printL e ++ (printTail es' ++ ')' :: rest)) by simp [printTail]] at hflen
          omega
        rw [hel e (by simp [LispVals.toList]) (printTail es' ++ ')' :: rest) hae hlen2]
        have hel' : ∀ e2, e2 ∈ es'.toList → ∀ rest2, atomEnd rest2 = true →
            (printL e2).length + rest2.length + 1 ≤ f →
            parseExprF f (printL e2 ++ rest2) = .ok e2 rest2 := by
          intro e2 he2
          exact hel e2 (by simp [LispVals.toList, he2])
        have hpure' : pureVals es' = true := by
          have h2 : (pureVal e && pureVals es') = true := hpure
          exact (Bool.and_eq_true _ _ |>.mp h2).2
        have hfit' : (printTail es' ++ ')' :: rest).length < g := by
          have h1 : 1 ≤ (printL e).length := by
            rcases hpl : printL e with _ | _
            · exact absurd hpl hne
            · simp
          rw [show printTail (.cons e es') ++ ')' :: rest =
            ' ' :: (printL e ++ (printTail es' ++ ')' :: rest)) by simp [printTail]] at hfit
          simp at hfit ⊢
          omega
        have hflen' : (printTail es' ++ ')' :: rest).length + 1 ≤ f := by omega
        show parseListWith (parseExprF f) g (printTail es' ++ ')' :: rest) (e :: acc) =
          .ok (.list ((LispVals.ofList acc.reverse).append (.cons e es'))) rest
        rw [roundTail f es' (e :: acc) rest g hel' hpure' hfit' hflen']
        rw [LispVals.ofList_rev_cons]

/-- The `(` branch of `parseExpr` hands the rest to the list loop. -/
theorem parseExprF_open (f : Nat) (r : List Char) :
    parseExprF (f + 1) ('(' :: r) = parseListWith (parseExprF f) (r.length + 1) r [] := rfl

/-- Core round trip: the printed form of a pure value, followed by a
delimiter, parses back to exactly that value. -/
theorem printL_parse :
    ∀ (n : Nat) (v : LispVal), valSize v ≤ n → ∀ (rest : List Char) (fuel : Nat),
      pureVal v = true → atomEnd rest = true →
      (printL v).length + rest.length + 1 ≤ fuel →
      parseExprF fuel (printL v ++ rest) = .ok v rest := by
  intro n
  induction n with
  | zero =>
    intro v hsz
    have := valSize_pos v
    omega
  | succ n ih =>
    intro v hsz rest fuel hv hrest hfuel
    match v with
    | .sym s => simp [pureVal] at hv
    | .func ps b => simp [pureVal] at hv
    | .prim s => simp [pureVal] at hv
    | .undef => simp [pureVal] at hv
    | .num m =>
      obtain ⟨hall, c, tl, hct, h3, h4, h5⟩ := intChars_facts m
      match fuel with
      | 0 => omega
      | f + 1 =>
        show parseExprF (f + 1) (intChars m ++ rest) = _
        rw [hct]
        rw [parseExprF_atom c tl rest f (by rw [← hct]; exact hall) hrest h3 h4 h5]
        rw [← hct, classifyTok_intChars]
    | .bool b =>
      cases b
      · simp [pureVal] at hv
      · match fuel with
        | 0 => omega
        | f + 1 =>
          show parseExprF (f + 1) (['t'] ++ rest) = _
          rw [parseExprF_atom 't' [] rest f (by decide) hrest (by decide) (by decide)
            (by decide)]
          rfl
    | .null =>
      match fuel with
      | 0 => omega
      | f + 1 =>
        show parseExprF (f + 1) (['n', 'i', 'l'] ++ rest) = _
        rw [parseExprF_atom 'n' ['i', 'l'] rest f (by decide) hrest (by decide) (by decide)
          (by decide)]
        rfl
    | .str s =>
      match fuel with
      | 0 => omega
      | f + 1 =>
        have hok : ∀ c ∈ s.toList, c ≠ '"' ∧ c ≠ '\\' := by
          have hs : strOk s = true := hv
          simp [strOk, List.all_eq_true] at hs
          intro c hc
          exact hs c hc
        show parseExprF (f + 1) (('"' :: s.toList ++ ['"']) ++ rest) = _
        have hshape : ('"' :: s.toList ++ ['"']) ++ rest =
            '"' :: (s.toList ++ '"' :: rest) := by simp
        rw [hshape]
        rw [parseExprF]
        rw [show skipWs ('"' :: (s.toList ++ '"' :: rest)) = _ from
          skipWs_cons_noWs '"' (s.toList ++ '"' :: rest) (by decide)]
        simp only [if_pos rfl]
        rw [parseStrBody_clean s.toList rest hok]
        rw [unescape_clean s.toList (fun x hx => (hok x hx).2)]
        show POut.ok (.str (String.mk s.data)) rest = POut.ok (.str s) rest
        cases s
        rfl
    | .list es =>
      match fuel with
      | 0 => omega
      | f + 1 =>
        show parseExprF (f + 1) (('(' :: printLs es ++ [')']) ++ rest) = _
        have hshape : ('(' :: printLs es ++ [')']) ++ rest =
            '(' :: (printLs es ++ ')' :: rest) := by simp
        rw [hshape, parseExprF_open]
        match es with
        | .nil =>
          show parseListWith (parseExprF f) ((')' :: rest).length + 1) (')' :: rest) [] = _
          rw [show (')' :: rest).length + 1 = rest.length + 1 + 1 by simp]
          rw [parseListWith]
          rw [show skipWs (')' :: rest) = ')' :: rest from
            skipWs_cons_noWs ')' rest (by decide)]
          rfl
        | .cons e es' =>
          have hpe : pureVal e = true :=
            pureVals_mem e (.cons e es') (by simp [LispVals.toList]) hv
          obtain ⟨c, tl, hct, hws, hcp⟩ := printL_head_facts e hpe
          have hne := printL_ne_nil e hpe
          have hlen1 : 1 ≤ (printL e).length := by
            rcases hpl : printL e with _ | _
            · exact absurd hpl hne
            · simp
          have hshape2 : printLs (.cons e es') ++ ')' :: rest =
              c :: (tl ++ (printTail es' ++ ')' :: rest)) := by
            rw [printLs_eq e es', hct]
            simp
          rw [hshape2]
          have hlenshape : (c :: (tl ++ (printTail es' ++ ')' :: rest))).length =
              (tl ++ (printTail es' ++ ')' :: rest)).length + 1 := by simp
          rw [hlenshape]
          rw [parseListWith]
          rw [show skipWs (c :: (tl ++ (printTail es' ++ ')' :: rest))) =
            c :: (tl ++ (printTail es' ++ ')' :: rest)) from skipWs_cons_noWs _ _ hws]
          split
          next r1 heq =>
            injection heq with hc1 hr1
            exact absurd hc1 hcp
          next heq => cases heq
          next hne1 hne2 =>
            have hback : c :: (tl ++ (printTail es' ++ ')' :: rest)) =
                printL e ++ (printTail es' ++ ')' :: rest) := by
              rw [hct]
              simp
            rw [hback]
            have hsz' : valSize e ≤ n := by
              have h1 := valSize_mem e (.cons e es') (by simp [LispVals.toList])
              have h2 : valSize (LispVal.list (.cons e es')) ≤ n + 1 := hsz
              simp [valSize] at h2
              omega
            have hae : atomEnd (printTail es' ++ ')' :: rest) = true :=
              atomEnd_printTail es' rest
            have hflen : (printL e).length + (printTail es' ++ ')' :: rest).length + 1 ≤ f := by
              have hfl : (printL (LispVal.list (.cons e es'))).length =
                  2 + (printL e).length + (printTail es').length := by
                show ('(' :: printLs (.cons e es') ++ [')']).length = _
                rw [printLs_eq e es']
                simp
                omega
              rw [hfl] at hfuel
              simp at hfuel ⊢
              omega
            rw [ih e hsz' (printTail es' ++ ')' :: rest) f hpe hae hflen]
            show parseListWith (parseExprF f)
                ((tl ++ (printTail es' ++ ')' :: rest)).length + 1)
                (printTail es' ++ ')' :: rest) [e] =
              .ok (.list (.cons e es')) rest
            have hel' : ∀ e2, e2 ∈ es'.toList → ∀ rest2, atomEnd rest2 = true →
                (printL e2).length + rest2.length + 1 ≤ f →
                parseExprF f (printL e2 ++ rest2) = .ok e2 rest2 := by
              intro e2 he2 rest2 hr2 hf2
              have hsz2 : valSize e2 ≤ n := by
                have h1 := valSize_mem e2 (.cons e es') (by simp [LispVals.toList, he2])
                have h2 : valSize (LispVal.list (.cons e es')) ≤ n + 1 := hsz
                simp [valSize] at h2
                omega
              exact ih e2 hsz2 rest2 f (pureVals_mem e2 (.cons e es')
                (by simp [LispVals.toList, he2]) hv) hr2 hf2
            have hpure' : pureVals es' = true := by
              have h2 : (pureVal e && pureVals es') = true := hv
              exact (Bool.and_eq_true _ _ |>.mp h2).2
            have hfit2 : (printTail es' ++ ')' :: rest).length <
                (tl ++ (printTail es' ++ ')' :: rest)).length + 1 := by
              simp
              omega
            have hflen2 : (printTail es' ++ ')' :: rest).length + 1 ≤ f := by
              omega
            rw [roundTail f es' [e] rest
              ((tl ++ (printTail es' ++ ')' :: rest)).length + 1) hel' hpure' hfit2 hflen2]
            rfl

/-- `parse` recovers any pure value from its printed form. -/
theorem parse_printLisp (v : LispVal) (hv : pureVal v = true) :
    parse (printLisp v) = Except.ok v := by
  have h := printL_parse (valSize v) v le_rfl [] ((printL v).length + 1) hv rfl
    (by simp)
  rw [List.append_nil] at h
  show (match parseExprF ((printLisp v).toList.length + 1) (printLisp v).toList with
    | POut.ok v _ => Except.ok v
    | POut.unclosed => Except.error "Unclosed list"
    | POut.nofuel => Except.error "parser out of fuel") = Except.ok v
  rw [show (printLisp v).toList = printL v from rfl]
  rw [show (printL v).length + 1 = (printL v).length + 1 from rfl]
  rw [h]

/-- Atoms evaluate to themselves. -/
def selfEvaluating : LispVal → Bool
  | .num _ => true
  | .str _ => true
  | .bool _ => true
  | .null => true
  | _ => false

example : parse (printLisp (.list (.cons (.num 1) (.cons (.str "a b") .nil)))) =
    Except.ok (.list (.cons (.num 1) (.cons (.str "a b") .nil))) :=
  parse_printLisp _ (by decide)

-- --- Claim theorems ---

/-- C2 (amended): for every value built purely from `Number`/`String`/`Bool`/
`Nil`/`List` constructors in which `Bool(false)` does not occur, every
string is free of `"` and `\`, and every number is integral of magnitude
below `10 ^ 21` (beyond which JS prints exponentially and the source itself
fails to round-trip — see `pureVal`), `parse (printLisp v)` returns a value
equal to `v`; moreover, when `v` is a number, string, boolean or nil — the
self-evaluating atoms — evaluating the parsed value in any environment and
host state yields `v` unchanged.  (Evaluating a parsed *list* applies it as a
call instead; see the counterexample.) -/
theorem C2_print_parse_roundtrip :
    ∀ v : LispVal, pureVal v = true →
      parse (printLisp v) = Except.ok v ∧
      (selfEvaluating v = true → ∀ (env : Env) (st : EmacsState) (fuel : Nat),
        evalLisp (fuel + 1) v env st = .ok (v, env, st)) := by
  intro v hv
  refine ⟨parse_printLisp v hv, ?_⟩
  intro hse env st fuel
  match v with
  | .num m => rfl
  | .str s => rfl
  | .bool b => rfl
  | .null => rfl
  | .list es => simp [selfEvaluating] at hse
  | .sym s => simp [pureVal] at hv
  | .func a b => simp [pureVal] at hv
  | .prim s => simp [pureVal] at hv
  | .undef => simp [pureVal] at hv

theorem C2_print_parse_roundtrip_witness :
    parse (printLisp (.list (.cons (.num 1)
        (.cons (.str "a b") (.cons .null .nil))))) =
      Except.ok (.list (.cons (.num 1) (.cons (.str "a b") (.cons .null .nil)))) ∧
    evalLisp 1 (.num 5) initialEnv initialState =
      .ok (.num 5, initialEnv, initialState) := by
  constructor
  · exact (C2_print_parse_roundtrip _ (by decide)).1
  · exact (C2_print_parse_roundtrip (.num 5) (by decide)).2 rfl initialEnv initialState 0

/-- C2 counterexample to the claim as stated: `Bool false` prints as `"nil"`
and comes back as `Nil`; a parsed list is *applied* by the evaluator rather
than returned; and strings containing a backslash-`n` or a quote are mangled
or break the parse inside a list. -/
theorem C2_claim_counterexample :
    parse (printLisp (.bool false)) = Except.ok .null ∧
    evalLisp 5 .null initialEnv initialState = .ok (.null, initialEnv, initialState) ∧
    (LispVal.null ≠ .bool false) ∧
    evalLisp 5 (.list (.cons (.num 1) (.cons (.num 2) .nil))) initialEnv initialState =
      .error "Invalid function call" ∧
    parse (printLisp (.list (.cons (.str "\\n") .nil))) =
      .ok (.list (.cons (.str "\n") .nil)) ∧
    (LispVal.list (.cons (.str "\\n") .nil) ≠ .list (.cons (.str "\n") .nil)) ∧
    parse (printLisp (.list (.cons (.str "\"") .nil))) = .error "Unclosed list" :=
  ⟨by decide, by decide, by decide, by decide, by decide, by decide, by decide⟩

/-- C8: an unclosed list makes `parse` fail with exactly the
`"Unclosed list"` error — it is the parser's only throw site, so every
failing `parse` reports it and returns no value. -/
theorem C8_unclosed_list :
    parse "(+ 1 2" = Except.error "Unclosed list" ∧
    ∀ s : String, (∃ v, parse s = Except.ok v) ∨ parse s = Except.error "Unclosed list" :=
  ⟨by decide, parse_ok_or_unclosed⟩

/-- The editor state after modifying inserts into the scratch buffer. -/
def scratchState (content : String) (cur : Nat) : EmacsState :=
  ⟨[⟨"buf1", "scratch", content, cur, true⟩], "buf1"⟩

/-- C3: `(progn (insert "A") (insert "B") (insert "C"))` against the single
empty active buffer with cursor 0 leaves content `"ABC"` and cursor 3; the
one- and two-insert prefixes show each insert writing at the cursor the
previous one advanced. -/
theorem C3_progn_insert_chaining :
    runString 10 "(insert \"A\")" initialEnv initialState =
      .ok (.null, initialEnv, scratchState "A" 1) ∧
    runString 10 "(progn (insert \"A\") (insert \"B\"))" initialEnv initialState =
      .ok (.null, initialEnv, scratchState "AB" 2) ∧
    runString 10 "(progn (insert \"A\") (insert \"B\") (insert \"C\"))" initialEnv
        initialState =
      .ok (.null, initialEnv, scratchState "ABC" 3) :=
  ⟨by decide, by decide, by decide⟩

/-- C7: a value is false for `if` exactly when it is `Nil` or `Bool false`;
`Number 0` and the empty list are true; the worked `if` examples, including
the missing-else case returning `Nil`. -/
theorem C7_truthiness :
    (∀ v : LispVal, lispIsTrue v = false ↔ (v = .null ∨ v = .bool false)) ∧
    lispIsTrue (.num 0) = true ∧
    lispIsTrue (.list .nil) = true ∧
    runString 10 "(if nil 1 2)" initialEnv initialState =
      .ok (.num 2, initialEnv, initialState) ∧
    runString 10 "(if 0 1 2)" initialEnv initialState =
      .ok (.num 1, initialEnv, initialState) ∧
    runString 10 "(if nil 1)" initialEnv initialState =
      .ok (.null, initialEnv, initialState) := by
  refine ⟨?_, by decide, by decide, by decide, by decide, by decide⟩
  intro v
  match v with
  | .null => simp [lispIsTrue]
  | .bool b => cases b <;> simp [lispIsTrue]
  | .num m => simp [lispIsTrue]
  | .str s => simp [lispIsTrue]
  | .sym s => simp [lispIsTrue]
  | .list es => simp [lispIsTrue]
  | .func a b => simp [lispIsTrue]
  | .prim s => simp [lispIsTrue]
  | .undef => simp [lispIsTrue]

/-- C10: the `=` primitive compares only the raw `value` payloads of its
first two arguments with strict equality, so two arguments that both lack a
payload — symbols, lists, nil, functions, primitives, in any mixture —
compare equal; in particular `(= (quote (1 2)) (quote (3 4 5)))` is `t`. -/
theorem C10_eq_raw_payload :
    (∀ (a b : LispVal) (rest : List LispVal) (st : EmacsState),
      jsValue a = none → a ≠ .undef → jsValue b = none → b ≠ .undef →
      primApply "=" (a :: b :: rest) st = .ok (.bool true, st)) ∧
    runString 10 "(= (quote (1 2)) (quote (3 4 5)))" initialEnv initialState =
      .ok (.bool true, initialEnv, initialState) := by
  refine ⟨?_, by decide⟩
  intro a b rest st ha ha' hb hb'
  show (if a = LispVal.undef || b = LispVal.undef then
      (Except.error "TypeError" : Except String (LispVal × EmacsState))
    else Except.ok (LispVal.bool (decide (jsValue a = jsValue b)), st)) =
    Except.ok (LispVal.bool true, st)
  rw [if_neg (by simp [ha', hb'])]
  rw [ha, hb]
  rfl

theorem C10_eq_raw_payload_witness :
    primApply "=" [.sym "x", .list (.cons (.num 1) .nil)] initialState =
      .ok (.bool true, initialState) :=
  C10_eq_raw_payload.1 (.sym "x") (.list (.cons (.num 1) .nil)) [] initialState
    rfl (by decide) rfl (by decide)

/-- C1: `car`/`cdr` on a *non-empty* list return the head and the tail list,
and on a *non-List* value return `Nil` — but on the *empty* list the JS
truthiness slip (`[]` is truthy, so `args[0].elements ? ... : mkNull()` takes
the first branch) makes `car` produce the JS `undefined` value and `cdr` the
empty list itself, not `Nil` as the spec states. -/
theorem C1_car_cdr_behaviour :
    (∀ (st : EmacsState) (a : LispVal) (r : LispVals) (more : List LispVal),
      primApply "car" (.list (.cons a r) :: more) st = .ok (a, st) ∧
      primApply "cdr" (.list (.cons a r) :: more) st = .ok (.list r, st)) ∧
    (∀ (st : EmacsState) (s : String) (more : List LispVal),
      primApply "car" (.sym s :: more) st = .ok (.null, st) ∧
      primApply "cdr" (.sym s :: more) st = .ok (.null, st) ∧
      primApply "car" (.str s :: more) st = .ok (.null, st) ∧
      primApply "cdr" (.str s :: more) st = .ok (.null, st) ∧
      primApply "car" (.prim s :: more) st = .ok (.null, st) ∧
      primApply "cdr" (.prim s :: more) st = .ok (.null, st)) ∧
    (∀ (st : EmacsState) (n : Int) (b : Bool) (ps : List String) (bd : LispVal)
        (more : List LispVal),
      primApply "car" (.num n :: more) st = .ok (.null, st) ∧
      primApply "cdr" (.num n :: more) st = .ok (.null, st) ∧
      primApply "car" (.bool b :: more) st = .ok (.null, st) ∧
      primApply "cdr" (.bool b :: more) st = .ok (.null, st) ∧
      primApply "car" (.null :: more) st = .ok (.null, st) ∧
      primApply "cdr" (.null :: more) st = .ok (.null, st) ∧
      primApply "car" (.func ps bd :: more) st = .ok (.null, st) ∧
      primApply "cdr" (.func ps bd :: more) st = .ok (.null, st)) ∧
    (∀ st : EmacsState,
      primApply "car" [.list .nil] st = .ok (.undef, st) ∧
      primApply "cdr" [.list .nil] st = .ok (.list .nil, st)) ∧
    runString 10 "(cdr (quote ()))" initialEnv initialState =
      .ok (.list .nil, initialEnv, initialState) ∧
    (LispVal.list .nil ≠ .null) ∧
    runString 10 "(car (quote ()))" initialEnv initialState =
      .ok (.undef, initialEnv, initialState) := by
  refine ⟨?_, ?_, ?_, ?_, by decide, by decide, by decide⟩
  · intro st a r more
    exact ⟨rfl, rfl⟩
  · intro st s more
    exact ⟨rfl, rfl, rfl, rfl, rfl, rfl⟩
  · intro st n b ps bd more
    exact ⟨rfl, rfl, rfl, rfl, rfl, rfl, rfl, rfl⟩
  · intro st
    exact ⟨rfl, rfl⟩

-- --- Evaluation never touches outer frames ---

/-- `env.set`/`define` rewrite only the head frame. -/
theorem envSet_tail (n : String) (v : LispVal) (env : Env) :
    (envSet n v env).tail = env.tail := by
  cases env <;> rfl

/-- Shorthand: an evaluator step that can change the innermost frame but
leaves the outer chain intact. -/
def TailPres (p : Ev) : Prop :=
  ∀ e env st v env' st', p e env st = .ok (v, env', st') → env'.tail = env.tail

theorem evalSeqWith_tail (p : Ev) (hp : TailPres p) :
    ∀ (es : LispVals) (last : LispVal) (env : Env) (st : EmacsState) v env' st',
      evalSeqWith p es last env st = .ok (v, env', st') → env'.tail = env.tail
  | .nil => by
    intro last env st v env' st' h
    simp [evalSeqWith] at h
    rw [h.2.1]
  | .cons e rest => by
    intro last env st v env' st' h
    rw [evalSeqWith] at h
    cases h1 : p e env st with
    | ok t =>
      rcases t with ⟨v1, env1, st1⟩
      rw [h1] at h
      have h2 := evalSeqWith_tail p hp rest v1 env1 st1 v env' st' h
      rw [h2, hp e env st v1 env1 st1 h1]
    | error m => rw [h1] at h; cases h

theorem evalArgsWith_tail (p : Ev) (hp : TailPres p) :
    ∀ (es : LispVals) (env : Env) (st : EmacsState) vs env' st',
      evalArgsWith p es env st = .ok (vs, env', st') → env'.tail = env.tail
  | .nil => by
    intro env st vs env' st' h
    simp [evalArgsWith] at h
    rw [h.2.1]
  | .cons e rest => by
    intro env st vs env' st' h
    rw [evalArgsWith] at h
    cases h1 : p e env st with
    | ok t =>
      rcases t with ⟨v1, env1, st1⟩
      rw [h1] at h
      cases h2 : evalArgsWith p rest env1 st1 with
      | ok t2 =>
        rcases t2 with ⟨vs2, env2, st2⟩
        simp [h2] at h
        obtain ⟨h3, h4, h5⟩ := h
        subst h4
        rw [evalArgsWith_tail p hp rest env1 st1 vs2 env2 st2 h2,
          hp e env st v1 env1 st1 h1]
      | error m => simp [h2] at h
    | error m => rw [h1] at h; cases h

theorem evalSetqWith_tail (p : Ev) (hp : TailPres p) :
    ∀ (es : LispVals) (last : LispVal) (env : Env) (st : EmacsState) v env' st',
      evalSetqWith p es last env st = .ok (v, env', st') → env'.tail = env.tail
  | .nil => by
    intro last env st v env' st' h
    simp [evalSetqWith] at h
    rw [h.2.1]
  | .cons (.sym n) (.cons vE rest) => by
    intro last env st v env' st' h
    rw [evalSetqWith] at h
    cases h1 : p vE env st with
    | ok t =>
      rcases t with ⟨v1, env1, st1⟩
      rw [h1] at h
      have h2 := evalSetqWith_tail p hp rest v1 (envSet n v1 env1) st1 v env' st' h
      rw [h2, envSet_tail, hp vE env st v1 env1 st1 h1]
    | error m => rw [h1] at h; cases h
  | .cons (.sym n) .nil => by
    intro last env st v env' st' h
    simp [evalSetqWith] at h
  | .cons (.num x) rest => by intro last env st v env' st' h; simp [evalSetqWith] at h
  | .cons (.str x) rest => by intro last env st v env' st' h; simp [evalSetqWith] at h
  | .cons (.bool x) rest => by intro last env st v env' st' h; simp [evalSetqWith] at h
  | .cons .null rest => by intro last env st v env' st' h; simp [evalSetqWith] at h
  | .cons .undef rest => by intro last env st v env' st' h; simp [evalSetqWith] at h
  | .cons (.list x) rest => by intro last env st v env' st' h; simp [evalSetqWith] at h
  | .cons (.func x y) rest => by intro last env st v env' st' h; simp [evalSetqWith] at h
  | .cons (.prim x) rest => by intro last env st v env' st' h; simp [evalSetqWith] at h

theorem evalLetBindsWith_pair (ev : Ev) (x e1 : LispVal) (tl rest : LispVals)
    (acc : Frame) (env : Env) (st : EmacsState) :
    evalLetBindsWith ev (.cons (.list (.cons x (.cons e1 tl))) rest) acc env st =
      match ev e1 env st with
      | .ok (v, env1, st1) =>
        evalLetBindsWith ev rest
          (match x with
           | .sym n => frameSet n v acc
           | _ => acc) env1 st1
      | .error m => .error m := rfl

theorem evalLetBindsWith_tail (p : Ev) (hp : TailPres p) :
    ∀ (es : LispVals) (acc : Frame) (env : Env) (st : EmacsState) fr env' st',
      evalLetBindsWith p es acc env st = .ok (fr, env', st') → env'.tail = env.tail
  | .nil => by
    intro acc env st fr env' st' h
    simp [evalLetBindsWith] at h
    rw [h.2.1]
  | .cons b rest => by
    intro acc env st fr env' st' h
    match b with
    | .list (.cons x (.cons e1 tl)) =>
      rw [evalLetBindsWith_pair] at h
      cases h1 : p e1 env st with
      | ok t =>
        rcases t with ⟨v1, env1, st1⟩
        rw [h1] at h
        have h2 := evalLetBindsWith_tail p hp rest _ env1 st1 fr env' st' h
        rw [h2, hp e1 env st v1 env1 st1 h1]
      | error m => simp [h1] at h
    | .list .nil =>
      rw [show evalLetBindsWith p (.cons (.list .nil) rest) acc env st =
        .error "TypeError" from rfl] at h
      cases h
    | .list (.cons x .nil) =>
      rw [show evalLetBindsWith p (.cons (.list (.cons x .nil)) rest) acc env st =
        .error "TypeError" from rfl] at h
      cases h
    | .sym n => exact evalLetBindsWith_tail p hp rest _ env st fr env' st' h
    | .num x => exact evalLetBindsWith_tail p hp rest _ env st fr env' st' h
    | .str x => exact evalLetBindsWith_tail p hp rest _ env st fr env' st' h
    | .bool x => exact evalLetBindsWith_tail p hp rest _ env st fr env' st' h
    | .null => exact evalLetBindsWith_tail p hp rest _ env st fr env' st' h
    | .undef => exact evalLetBindsWith_tail p hp rest _ env st fr env' st' h
    | .func a c => exact evalLetBindsWith_tail p hp rest _ env st fr env' st' h
    | .prim a => exact evalLetBindsWith_tail p hp rest _ env st fr env' st' h

/-- One-step unfolding of `evalLisp` on a non-empty list form. -/
theorem evalLisp_consEq (fuel : Nat) (head : LispVal) (args : LispVals)
    (env : Env) (st : EmacsState) :
    evalLisp (fuel + 1) (.list (.cons head args)) env st =
      (if head = .sym "quote" then
        match args with
        | .cons e _ => .ok (e, env, st)
        | .nil => .error "TypeError"
      else if head = .sym "setq" then
        evalSetqWith (evalLisp fuel) args .null env st
      else if head = .sym "if" then
        match args with
        | .cons c (.cons t els) =>
          (match evalLisp fuel c env st with
           | .ok (cv, env1, st1) =>
             if cv = .undef then .error "TypeError"
             else if lispIsTrue cv then evalLisp fuel t env1 st1
             else
               match els with
               | .cons e _ => evalLisp fuel e env1 st1
               | .nil => .ok (.null, env1, st1)
           | .error m => .error m)
        | .cons c .nil =>
          (match evalLisp fuel c env st with
           | .ok (cv, env1, st1) =>
             if cv = .undef then .error "TypeError"
             else if lispIsTrue cv then .error "TypeError"
             else .ok (.null, env1, st1)
           | .error m => .error m)
        | .nil => .error "TypeError"
      else if head = .sym "defun" then
        match args with
        | .cons (.sym nm) (.cons (.list ps) bodyRest) =>
          (match symNames ps with
           | .ok params =>
             .ok (.sym nm,
               envSet nm (.func params (.list (.cons (.sym "progn") bodyRest))) env,
               st)
           | .error m => .error m)
        | _ => .error "TypeError"
      else if head = .sym "progn" then
        evalSeqWith (evalLisp fuel) args .null env st
      else if head = .sym "let" then
        match args with
        | .cons (.list binds) body =>
          (match evalLetBindsWith (evalLisp fuel) binds [] env st with
           | .ok (frame, env1, st1) =>
             (match evalSeqWith (evalLisp fuel) body .null (frame :: env1) st1 with
              | .ok (v, envB, stB) => .ok (v, envB.tail, stB)
              | .error m => .error m)
           | .error m => .error m)
        | _ => .error "TypeError"
      else if head = .sym "interactive" then .ok (.null, env, st)
      else
        match evalLisp fuel head env st with
        | .ok (fn, env1, st1) =>
          (match evalArgsWith (evalLisp fuel) args env1 st1 with
           | .ok (argv, env2, st2) =>
             (match fn with
              | .prim pname =>
                (match primApply pname argv st2 with
                 | .ok (v, st3) => .ok (v, env2, st3)
                 | .error m => .error m)
              | .func params body =>
                (match evalLisp fuel body (bindFrame params argv [] :: env2) st2 with
                 | .ok (v, env3, st3) => .ok (v, env3.tail, st3)
                 | .error m => .error m)
              | _ => .error "Invalid function call")
           | .error m => .error m)
        | .error m => .error m) := rfl

/-- Evaluation can rebind names only in the innermost frame: the whole outer
chain (`outer` in the source) survives any successful evaluation unchanged. -/
theorem evalLisp_tail :
    ∀ (fuel : Nat) (e : LispVal) (env : Env) (st : EmacsState) v env' st',
      evalLisp fuel e env st = .ok (v, env', st') → env'.tail = env.tail := by
  intro fuel
  induction fuel with
  | zero => intro e env st v env' st' h; simp [evalLisp] at h
  | succ fuel ih =>
    intro e env st v env' st' h
    have ihp : TailPres (evalLisp fuel) := fun a b c d f g => ih a b c d f g
    match e with
    | .num x => simp [evalLisp] at h; rw [h.2.1]
    | .str x => simp [evalLisp] at h; rw [h.2.1]
    | .bool x => simp [evalLisp] at h; rw [h.2.1]
    | .null => simp [evalLisp] at h; rw [h.2.1]
    | .undef => simp [evalLisp] at h
    | .func a b => simp [evalLisp] at h; rw [h.2.1]
    | .prim a => simp [evalLisp] at h; rw [h.2.1]
    | .sym n =>
      rw [show evalLisp (fuel + 1) (.sym n) env st =
        (match envGet n env with
         | .ok w => .ok (w, env, st)
         | .error m => .error m) from rfl] at h
      cases h1 : envGet n env with
      | ok w => rw [h1] at h; injection h with h2; injection h2 with h3 h4;
                injection h4 with h5 h6; rw [← h5]
      | error m => rw [h1] at h; cases h
    | .list .nil => simp [evalLisp] at h; rw [h.2.1]
    | .list (.cons head args) =>
      rw [evalLisp_consEq] at h
      split_ifs at h with h1 h2 h3 h4 h5 h6 h7
      · -- quote
        match args with
        | .cons e2 more => injection h with h2; injection h2 with h3 h4;
                           injection h4 with h5 h6; rw [← h5]
        | .nil => cases h
      · -- setq
        exact evalSetqWith_tail (evalLisp fuel) ihp args .null env st v env' st' h
      · -- if
        match args with
        | .cons c (.cons t els) =>
          simp only at h
          cases hc : evalLisp fuel c env st with
          | ok tc =>
            rcases tc with ⟨cv, env1, st1⟩
            rw [hc] at h
            simp only at h
            by_cases hu : cv = LispVal.undef
            · simp [hu] at h
            · rw [if_neg hu] at h
              by_cases ht : lispIsTrue cv = true
              · rw [if_pos ht] at h
                rw [ih t env1 st1 v env' st' h, ih c env st cv env1 st1 hc]
              · rw [if_neg ht] at h
                match els with
                | .cons e2 more =>
                  rw [ih e2 env1 st1 v env' st' h, ih c env st cv env1 st1 hc]
                | .nil =>
                  injection h with h2; injection h2 with h3 h4
                  injection h4 with h5 h6
                  rw [← h5, ih c env st cv env1 st1 hc]
          | error m => rw [hc] at h; simp at h
        | .cons c .nil =>
          simp only at h
          cases hc : evalLisp fuel c env st with
          | ok tc =>
            rcases tc with ⟨cv, env1, st1⟩
            rw [hc] at h
            simp only at h
            by_cases hu : cv = LispVal.undef
            · simp [hu] at h
            · rw [if_neg hu] at h
              by_cases ht : lispIsTrue cv = true
              · rw [if_pos ht] at h
                cases h
              · rw [if_neg ht] at h
                injection h with h2; injection h2 with h3 h4
                injection h4 with h5 h6
                rw [← h5, ih c env st cv env1 st1 hc]
          | error m => rw [hc] at h; simp at h
        | .nil => cases h
      · -- defun
        match args with
        | .cons (.sym nm) (.cons (.list ps) bodyRest) =>
          simp only at h
          cases hs : symNames ps with
          | ok params =>
            rw [hs] at h
            simp only at h
            injection h with h2; injection h2 with h3 h4
            injection h4 with h5 h6
            rw [← h5, envSet_tail]
          | error m => rw [hs] at h; simp at h
        | .nil => cases h
        | .cons (.sym nm) .nil => cases h
        | .cons (.sym nm) (.cons (.sym q) r) => cases h
        | .cons (.sym nm) (.cons (.num q) r) => cases h
        | .cons (.sym nm) (.cons (.str q) r) => cases h
        | .cons (.sym nm) (.cons (.bool q) r) => cases h
        | .cons (.sym nm) (.cons .null r) => cases h
        | .cons (.sym nm) (.cons .undef r) => cases h
        | .cons (.sym nm) (.cons (.func a b) r) => cases h
        | .cons (.sym nm) (.cons (.prim a) r) => cases h
        | .cons (.num q) r => cases h
        | .cons (.str q) r => cases h
        | .cons (.bool q) r => cases h
        | .cons .null r => cases h
        | .cons .undef r => cases h
        | .cons (.list q) r => cases h
        | .cons (.func a b) r => cases h
        | .cons (.prim a) r => cases h
      · -- progn
        exact evalSeqWith_tail (evalLisp fuel) ihp args .null env st v env' st' h
      · -- let
        match args with
        | .cons (.list binds) body =>
          simp only at h
          cases hb : evalLetBindsWith (evalLisp fuel) binds [] env st with
          | ok tb =>
            rcases tb with ⟨frame, env1, st1⟩
            rw [hb] at h
            simp only at h
            cases hq : evalSeqWith (evalLisp fuel) body .null (frame :: env1) st1 with
            | ok tq =>
              rcases tq with ⟨v2, envB, stB⟩
              rw [hq] at h
              injection h with h2; injection h2 with h3 h4
              injection h4 with h5 h6
              have hbt := evalLetBindsWith_tail (evalLisp fuel) ihp binds [] env st
                frame env1 st1 hb
              have hqt := evalSeqWith_tail (evalLisp fuel) ihp body .null
                (frame :: env1) st1 v2 envB stB hq
              rw [← h5]
              simp at hqt
              rw [hqt, hbt]
            | error m => rw [hq] at h; simp at h
          | error m => rw [hb] at h; cases h
        | .nil => cases h
        | .cons (.sym q) r => cases h
        | .cons (.num q) r => cases h
        | .cons (.str q) r => cases h
        | .cons (.bool q) r => cases h
        | .cons .null r => cases h
        | .cons .undef r => cases h
        | .cons (.func a b) r => cases h
        | .cons (.prim a) r => cases h
      · -- interactive
        injection h with h2; injection h2 with h3 h4
        injection h4 with h5 h6
        rw [← h5]
      · -- application
        cases hh : evalLisp fuel head env st with
        | ok th =>
          rcases th with ⟨fn, env1, st1⟩
          rw [hh] at h
          simp only at h
          cases ha : evalArgsWith (evalLisp fuel) args env1 st1 with
          | ok ta =>
            rcases ta with ⟨argv, env2, st2⟩
            rw [ha] at h
            simp only at h
            have h1t := ih head env st fn env1 st1 hh
            have h2t := evalArgsWith_tail (evalLisp fuel) ihp args env1 st1
              argv env2 st2 ha
            match fn with
            | .prim pname =>
              simp only at h
              cases hp : primApply pname argv st2 with
              | ok tp =>
                rcases tp with ⟨v3, st3⟩
                rw [hp] at h
                simp only at h
                injection h with h2; injection h2 with h3 h4
                injection h4 with h5 h6
                rw [← h5, h2t, h1t]
              | error m => rw [hp] at h; simp at h
            | .func params body =>
              simp only at h
              cases hv : evalLisp fuel body (bindFrame params argv [] :: env2) st2 with
              | ok tv =>
                rcases tv with ⟨v3, env3, st3⟩
                rw [hv] at h
                simp only at h
                injection h with h2; injection h2 with h3 h4
                injection h4 with h5 h6
                have h3t := ih body (bindFrame params argv [] :: env2) st2 v3 env3 st3 hv
                simp at h3t
                rw [← h5, h3t, h2t, h1t]
              | error m => rw [hv] at h; simp at h
            | .sym q => simp at h
            | .num q => simp at h
            | .str q => simp at h
            | .bool q => simp at h
            | .null => simp at h
            | .undef => simp at h
            | .list q => simp at h
          | error m => rw [ha] at h; simp at h
        | error m => rw [hh] at h; simp at h

theorem evalSetqWith_pair (ev : Ev) (n : String) (vE : LispVal) (rest : LispVals)
    (last : LispVal) (env : Env) (st : EmacsState) :
    evalSetqWith ev (.cons (.sym n) (.cons vE rest)) last env st =
      match ev vE env st with
      | .ok (v, env1, st1) => evalSetqWith ev rest v (envSet n v env1) st1
      | .error m => .error m := rfl

/-- C4: a two-pair `setq` evaluates each value in the current environment and
binds it with `env.set` — an operation that rewrites only the innermost
frame — returning the last assigned value (first conjunct); no successful
evaluation whatsoever can alter an outer frame (second conjunct); and a
`setq` performed inside a `let` body is gone once the `let` returns: reading
`x` afterwards fails with `Void variable` (third conjunct). -/
theorem C4_setq_current_scope :
    (∀ (fuel : Nat) (s1 s2 : String) (e1 e2 : LispVal) (env : Env) (st : EmacsState),
      evalLisp (fuel + 1) (.list (.cons (.sym "setq") (.cons (.sym s1) (.cons e1
          (.cons (.sym s2) (.cons e2 .nil)))))) env st =
        (match evalLisp fuel e1 env st with
         | .ok (v1, env1, st1) =>
           (match evalLisp fuel e2 (envSet s1 v1 env1) st1 with
            | .ok (v2, env2, st2) => .ok (v2, envSet s2 v2 env2, st2)
            | .error m => .error m)
         | .error m => .error m)) ∧
    (∀ (fuel : Nat) (e : LispVal) (env : Env) (st : EmacsState) v env' st',
      evalLisp fuel e env st = .ok (v, env', st') → env'.tail = env.tail) ∧
    runString 10 "(progn (let ((x 1)) (setq x 5)) x)" initialEnv initialState =
      .error "Void variable: x" := by
  refine ⟨?_, evalLisp_tail, by decide⟩
  intro fuel s1 s2 e1 e2 env st
  rw [evalLisp_consEq, if_neg (by decide), if_pos rfl, evalSetqWith_pair]
  cases h1 : evalLisp fuel e1 env st with
  | ok t1 =>
    rcases t1 with ⟨v1, env1, st1⟩
    simp only
    rw [evalSetqWith_pair]
    cases h2 : evalLisp fuel e2 (envSet s1 v1 env1) st1 with
    | ok t2 =>
      rcases t2 with ⟨v2, env2, st2⟩
      simp only
      rfl
    | error m => rfl
  | error m => rfl

theorem C4_setq_current_scope_witness :
    ([[("x", LispVal.num 5)], [("y", LispVal.num 7)]] : Env).tail =
      ([[], [("y", LispVal.num 7)]] : Env).tail :=
  C4_setq_current_scope.2.1 3 (.list (.cons (.sym "setq")
      (.cons (.sym "x") (.cons (.num 5) .nil))))
    [[], [("y", .num 7)]] initialState (.num 5)
    [[("x", .num 5)], [("y", .num 7)]] initialState (by decide)

def runVal (fuel : Nat) (s : String) : Except String LispVal :=
  match runString fuel s initialEnv initialState with
  | .ok (v, _, _) => .ok v
  | .error m => .error m

theorem frameGet_frameSet_self (n : String) (v : LispVal) :
    ∀ f, frameGet n (frameSet n v f) = some v
  | [] => by simp [frameSet, frameGet]
  | (k, w) :: r => by
    by_cases h : k = n
    · subst h; simp [frameSet, frameGet]
    · simp [frameSet, h, frameGet, frameGet_frameSet_self n v r]

theorem frameGet_frameSet_ne (m n : String) (v : LispVal) (h : m ≠ n) :
    ∀ f, frameGet n (frameSet m v f) = frameGet n f
  | [] => by simp [frameSet, frameGet, h]
  | (k, w) :: r => by
    by_cases hk : k = m
    · subst hk; simp [frameSet, frameGet, h]
    · simp [frameSet, hk, frameGet, frameGet_frameSet_ne m n v h r]

/-- Names outside the parameter list are untouched by the activation-record
construction. -/
theorem bindFrame_notMem (p : String) :
    ∀ (ps : List String) (args : List LispVal) (f : Frame), p ∉ ps →
      frameGet p (bindFrame ps args f) = frameGet p f
  | [], _, _, _ => rfl
  | q :: ps, [], f, h => by
    have hq : q ≠ p := fun hqp => h (hqp ▸ List.mem_cons_self q ps)
    show frameGet p (bindFrame ps [] (frameSet q .null f)) = _
    rw [bindFrame_notMem p ps [] _ (fun hm => h (List.mem_cons_of_mem q hm)),
      frameGet_frameSet_ne q p .null hq]
  | q :: ps, a :: rest, f, h => by
    have hq : q ≠ p := fun hqp => h (hqp ▸ List.mem_cons_self q ps)
    show frameGet p (bindFrame ps rest (frameSet q _ f)) = _
    rw [bindFrame_notMem p ps rest _ (fun hm => h (List.mem_cons_of_mem q hm)),
      frameGet_frameSet_ne q p _ hq]

/-- The activation record pairs parameters and arguments positionally; a
missing argument — and the raw JS `undefined` value, which is falsy — is
replaced by `Nil` (`args[i] || mkNull()`). -/
theorem bindFrame_get :
    ∀ (ps : List String) (args : List LispVal) (f : Frame) (i : Nat)
      (hnd : ps.Nodup) (hi : i < ps.length),
      frameGet (ps.get ⟨i, hi⟩) (bindFrame ps args f) =
        some (match args.getD i .undef with | .undef => .null | v => v)
  | [], _, _, i, _, hi => absurd hi (by simp)
  | p :: ps, args, f, 0, hnd, hi => by
    have hp : p ∉ ps := (List.nodup_cons.mp hnd).1
    cases args with
    | nil =>
      show frameGet p (bindFrame ps [] (frameSet p .null f)) = _
      rw [bindFrame_notMem p ps [] _ hp, frameGet_frameSet_self]
      rfl
    | cons a rest =>
      show frameGet p (bindFrame ps rest (frameSet p _ f)) = _
      rw [bindFrame_notMem p ps rest _ hp, frameGet_frameSet_self]
      rfl
  | p :: ps, args, f, i + 1, hnd, hi => by
    have hnd2 : ps.Nodup := (List.nodup_cons.mp hnd).2
    have hi2 : i < ps.length := Nat.lt_of_succ_lt_succ (by simpa using hi)
    cases args with
    | nil =>
      show frameGet (ps.get ⟨i, hi2⟩) (bindFrame ps [] (frameSet p .null f)) = _
      rw [bindFrame_get ps [] _ i hnd2 hi2]
      simp [List.getD_nil]
    | cons a rest =>
      show frameGet (ps.get ⟨i, hi2⟩) (bindFrame ps rest (frameSet p _ f)) = _
      rw [bindFrame_get ps rest _ i hnd2 hi2]
      simp [List.getD_cons_succ]

/-- `params.forEach` never reads past `params.length`: surplus arguments are
ignored. -/
theorem bindFrame_surplus :
    ∀ (ps : List String) (args : List LispVal) (acc : Frame),
      bindFrame ps args acc = bindFrame ps (args.take ps.length) acc
  | [], _, _ => rfl
  | _ :: _, [], _ => rfl
  | p :: ps, a :: rest, acc => by
    simp only [List.length_cons, List.take_succ_cons, bindFrame]
    exact bindFrame_surplus ps rest _

/-- C5: applying a user-defined function evaluates the head and the
arguments, then evaluates the stored body in a fresh activation frame chained
onto the *calling* environment (the environment after argument evaluation),
popping that frame from the result (first conjunct); the activation frame
binds the i-th parameter to the i-th evaluated argument, with missing
trailing arguments (and raw JS `undefined` values) bound to `Nil` (second
conjunct); surplus arguments beyond the parameter list are never consulted
(third conjunct); and concrete runs show the `Nil` padding, the surplus
dropping, and the caller chaining — a function body reads the *caller's*
`let` binding rather than any definition-time environment, and fails with
`Void variable` when no caller provides it (remaining conjuncts). -/
theorem C5_function_application :
    (∀ (fuel : Nat) (head : LispVal) (args : LispVals) (env : Env)
        (st : EmacsState) (params : List String) (body : LispVal)
        (env1 : Env) (st1 : EmacsState) (argv : List LispVal)
        (env2 : Env) (st2 : EmacsState),
      head ≠ .sym "quote" → head ≠ .sym "setq" → head ≠ .sym "if" →
      head ≠ .sym "defun" → head ≠ .sym "progn" → head ≠ .sym "let" →
      head ≠ .sym "interactive" →
      evalLisp fuel head env st = .ok (.func params body, env1, st1) →
      evalArgsWith (evalLisp fuel) args env1 st1 = .ok (argv, env2, st2) →
      evalLisp (fuel + 1) (.list (.cons head args)) env st =
        (match evalLisp fuel body (bindFrame params argv [] :: env2) st2 with
         | .ok (v, env3, st3) => .ok (v, env3.tail, st3)
         | .error m => .error m)) ∧
    (∀ (ps : List String) (args : List LispVal) (i : Nat)
        (hnd : ps.Nodup) (hi : i < ps.length),
      frameGet (ps.get ⟨i, hi⟩) (bindFrame ps args []) =
        some (match args.getD i .undef with | .undef => .null | v => v)) ∧
    (∀ (ps : List String) (args : List LispVal) (acc : Frame),
      bindFrame ps args acc = bindFrame ps (args.take ps.length) acc) ∧
    runVal 20 "(progn (defun f (a b) (list a b)) (f 1))" =
      .ok (.list (.cons (.num 1) (.cons .null .nil))) ∧
    runVal 20 "(progn (defun f (a b) (list a b)) (f 1 2 3))" =
      .ok (.list (.cons (.num 1) (.cons (.num 2) .nil))) ∧
    runVal 20 "(progn (defun g () x) (let ((x 42)) (g)))" = .ok (.num 42) ∧
    runVal 20 "(progn (defun g () x) (g))" = .error "Void variable: x" := by
  refine ⟨?_, fun ps args i hnd hi => bindFrame_get ps args [] i hnd hi,
    bindFrame_surplus, by decide, by decide, by decide, by decide⟩
  intro fuel head args env st params body env1 st1 argv env2 st2
  intro h1 h2 h3 h4 h5 h6 h7 hh ha
  rw [evalLisp_consEq, if_neg h1, if_neg h2, if_neg h3, if_neg h4,
    if_neg h5, if_neg h6, if_neg h7, hh]
  simp only
  rw [ha]

theorem C5_function_application_witness :
    evalLisp 2 (.list (.cons (.func ["x"] (.sym "x")) (.cons (.num 7) .nil)))
        initialEnv initialState = .ok (.num 7, initialEnv, initialState) := by
  have h := C5_function_application.1 1 (.func ["x"] (.sym "x"))
    (.cons (.num 7) .nil) initialEnv initialState ["x"] (.sym "x")
    initialEnv initialState [.num 7] initialEnv initialState
    (by decide) (by decide) (by decide) (by decide) (by decide) (by decide)
    (by decide) (by decide) (by decide)
  rw [h]
  decide

/-- C6: a `(let (binds) body...)` form evaluates the bindings into one fresh
frame and the body inside that frame chained onto the outer environment,
popping the frame from the result (first conjunct); every initializer is
evaluated in the *outer* environment `env`, never in the frame being
accumulated, so bindings are parallel (second conjunct, the binding step);
a bare-symbol binding is bound to `Nil` (third conjunct); an empty body
yields `Nil` (fourth conjunct); concrete runs show that an initializer
cannot read an earlier variable of the same `let`, and that the result is
the last body value (remaining conjuncts). -/
theorem C6_let_parallel_bindings :
    (∀ (fuel : Nat) (binds body : LispVals) (env : Env) (st : EmacsState),
      evalLisp (fuel + 1)
          (.list (.cons (.sym "let") (.cons (.list binds) body))) env st =
        (match evalLetBindsWith (evalLisp fuel) binds [] env st with
         | .ok (frame, env1, st1) =>
           (match evalSeqWith (evalLisp fuel) body .null (frame :: env1) st1 with
            | .ok (v, envB, stB) => .ok (v, envB.tail, stB)
            | .error m => .error m)
         | .error m => .error m)) ∧
    (∀ (fuel : Nat) (n : String) (e1 : LispVal) (tl rest : LispVals)
        (acc : Frame) (env : Env) (st : EmacsState),
      evalLetBindsWith (evalLisp fuel)
          (.cons (.list (.cons (.sym n) (.cons e1 tl))) rest) acc env st =
        (match evalLisp fuel e1 env st with
         | .ok (v, env1, st1) =>
           evalLetBindsWith (evalLisp fuel) rest (frameSet n v acc) env1 st1
         | .error m => .error m)) ∧
    (∀ (ev : Ev) (n : String) (rest : LispVals) (acc : Frame) (env : Env)
        (st : EmacsState),
      evalLetBindsWith ev (.cons (.sym n) rest) acc env st =
        evalLetBindsWith ev rest (frameSet n .null acc) env st) ∧
    (∀ (ev : Ev) (env : Env) (st : EmacsState),
      evalSeqWith ev LispVals.nil .null env st = .ok (.null, env, st)) ∧
    runVal 10 "(let ((x 1) (y x)) y)" = .error "Void variable: x" ∧
    runVal 10 "(let (y) y)" = .ok .null ∧
    runVal 10 "(let ((x 1)))" = .ok .null ∧
    runVal 10 "(let ((x 1)) 2 3)" = .ok (.num 3) := by
  refine ⟨?_, fun fuel n e1 tl rest acc env st => rfl,
    fun ev n rest acc env st => rfl, fun ev env st => rfl,
    by decide, by decide, by decide, by decide⟩
  intro fuel binds body env st
  rw [evalLisp_consEq, if_neg (by decide), if_neg (by decide),
    if_neg (by decide), if_neg (by decide), if_neg (by decide), if_pos rfl]

/-- Strings of matched parentheses: scanning one backward from depth `d ≥ 1`
returns to depth `d` without ever touching 0. -/
inductive BalParen : List Char → Prop
  | nil : BalParen []
  | other (c : Char) (l : List Char) : c ≠ '(' → c ≠ ')' → BalParen l →
      BalParen (c :: l)
  | wrap (l1 l2 : List Char) : BalParen l1 → BalParen l2 →
      BalParen ('(' :: l1 ++ ')' :: l2)

theorem scanParen_close (d : Nat) (r acc : List Char) :
    scanParen d (')' :: r) acc = scanParen (d + 1) r (')' :: acc) := by
  rw [scanParen]
  simp

theorem scanParen_open (d : Nat) (r acc : List Char) :
    scanParen d ('(' :: r) acc =
      if d - 1 = 0 then some ('(' :: acc) else scanParen (d - 1) r ('(' :: acc) := by
  rw [scanParen]
  simp

theorem scanParen_other (c : Char) (h1 : c ≠ ')') (h2 : c ≠ '(')
    (d : Nat) (hd : d ≠ 0) (r acc : List Char) :
    scanParen d (c :: r) acc = scanParen d r (c :: acc) := by
  rw [scanParen]
  simp [h1, h2, hd]

/-- The backward scan passes over the reversal of a balanced segment without
reaching depth 0, accumulating exactly that segment. -/
theorem scanParen_pass :
    ∀ (m : List Char), BalParen m →
      ∀ (d : Nat), 1 ≤ d → ∀ (tl acc : List Char),
        scanParen d (m.reverse ++ tl) acc = scanParen d tl (m ++ acc) := by
  intro m hm
  induction hm with
  | nil => intro d hd tl acc; rfl
  | other c l hc1 hc2 hl ih =>
    intro d hd tl acc
    rw [List.reverse_cons, List.append_assoc, List.singleton_append,
      ih d hd (c :: tl) acc,
      scanParen_other c hc2 hc1 d (by omega)]
    rfl
  | wrap l1 l2 h1 h2 ih1 ih2 =>
    intro d hd tl acc
    simp only [List.reverse_cons, List.reverse_append, List.append_assoc,
      List.cons_append, List.nil_append, List.singleton_append]
    rw [ih2 d hd _ acc, scanParen_close,
      ih1 (d + 1) (by omega) _ _, scanParen_open,
      if_neg (by omega : ¬ d + 1 - 1 = 0),
      show d + 1 - 1 = d from rfl]

theorem scanParen_noOpen :
    ∀ (r : List Char) (d : Nat) (acc : List Char), 1 ≤ d →
      (∀ c ∈ r, c ≠ '(') → scanParen d r acc = none
  | [], d, acc, _, _ => rfl
  | c :: r, d, acc, hd, h => by
    have hc : c ≠ '(' := h c (List.mem_cons_self c r)
    by_cases hcl : c = ')'
    · subst hcl
      rw [scanParen_close]
      exact scanParen_noOpen r (d + 1) _ (by omega)
        (fun x hx => h x (List.mem_cons_of_mem _ hx))
    · rw [scanParen_other c hcl hc d (by omega)]
      exact scanParen_noOpen r d _ hd
        (fun x hx => h x (List.mem_cons_of_mem _ hx))

theorem dropWhile_ws_append (l r : List Char) (h : ∀ c ∈ l, isWs c = true) :
    (l ++ r).dropWhile isWs = r.dropWhile isWs := by
  induction l with
  | nil => rfl
  | cons c cs ih =>
    rw [List.cons_append, List.dropWhile_cons,
      if_pos (h c (List.mem_cons_self c cs))]
    exact ih (fun x hx => h x (List.mem_cons_of_mem c hx))

/-- C9: when the character reached after skipping whitespace backward from
the cursor is `)` and the text before it is a balanced segment preceded by
its matching `(`, `findLastSexp` returns exactly the substring from that `(`
through the final `)` (first conjunct); if the backward scan finds no `(` at
all the depth never reaches 0 and the scan yields no sexp (second conjunct);
the spec's concrete cases: the full string for `(foo (bar 1))` at its end,
the atom `bar` for `foo bar`, and no sexp for the unbalanced `abc)`
(remaining conjuncts). -/
theorem C9_findLastSexp_scan :
    (∀ (text : String) (pre inner ws : List Char),
      BalParen inner → (∀ c ∈ ws, isWs c = true) →
      text.toList = pre ++ '(' :: inner ++ ')' :: ws →
      findLastSexp text text.length =
        some (String.mk ('(' :: inner ++ [')']))) ∧
    (∀ (r : List Char) (d : Nat) (acc : List Char), 1 ≤ d →
      (∀ c ∈ r, c ≠ '(') → scanParen d r acc = none) ∧
    findLastSexp "(foo (bar 1))" 13 = some "(foo (bar 1))" ∧
    findLastSexp "foo bar" 7 = some "bar" ∧
    findLastSexp "abc)" 4 = none := by
  refine ⟨?_, scanParen_noOpen, by decide, by decide, by decide⟩
  intro text pre inner ws hb hws htext
  have h1 : (text.toList.take text.length).reverse.dropWhile isWs =
      ')' :: (inner.reverse ++ '(' :: pre.reverse) := by
    rw [show text.toList.take text.length = text.toList from
      List.take_length text.toList]
    rw [htext]
    simp only [List.reverse_append, List.reverse_cons, List.append_assoc,
      List.cons_append, List.nil_append, List.singleton_append]
    rw [dropWhile_ws_append _ _ (fun c hc => hws c (List.mem_reverse.mp hc))]
    rw [List.dropWhile_cons, if_neg (by decide : ¬ (isWs (Char.ofNat 41) = true))]
  rw [findLastSexp]
  rw [h1]
  simp only
  rw [if_pos trivial]
  rw [scanParen_pass inner hb 1 (le_refl 1)]
  rw [scanParen_open]
  simp

theorem C9_findLastSexp_scan_witness :
    findLastSexp "x(foo) " ("x(foo) ".length) = some "(foo)" := by
  have h := C9_findLastSexp_scan.1 "x(foo) " ['x'] ['f', 'o', 'o'] [' ']
    (BalParen.other 'f' ['o', 'o'] (by decide) (by decide)
      (BalParen.other 'o' ['o'] (by decide) (by decide)
        (BalParen.other 'o' [] (by decide) (by decide) BalParen.nil)))
    (by decide) (by decide)
  rw [h]
  rfl
